import Mathlib

/-
  Verification development for the CoDiPack ChunkIndexTape
  (src/include/tapes/chunkIndexTape.hpp).

  Shallow embedding notes.
  * Real is modelled by the rationals.  Because the rationals have no
    non-finite values, the predicate std::isfinite is carried as an explicit
    Boolean parameter of the configuration; the default configuration makes
    every coefficient finite, which is the honest reading for the rational
    model.
  * The chained chunk vectors (chunkVector.hpp is not under src/) are
    flattened to plain lists with flat offsets as positions.  The chunked
    walk in evaluateStmt and evaluateData only splits the flat reverse walk
    at chunk boundaries, and store reserves space for a whole statement
    before pushing, so the in-chunk offset difference taken in store equals
    the flat length difference.
  * Compile time ENABLE_CHECK(option, condition) expands to
    if(!(option) || (condition)); enableCheck below mirrors that.
  * Writes the C++ code performs past the allocated adjoint size are
    undefined behaviour there; the model tracks adjointsSize separately and
    keeps the adjoint map total so that the bounds claims can be stated.
-/

namespace CoDiPack

/-- Compile time configuration switches of the tape, mirroring the
ENABLE_CHECK options used in chunkIndexTape.hpp, together with the
finiteness predicate standing in for std::isfinite. -/
structure Config where
  optTapeActivity : Bool
  optIgnoreInvalidJacobies : Bool
  optJacobiIsZero : Bool
  optZeroAdjoint : Bool
  isfinite : Rat → Bool

/-- The default configuration: all checks enabled, every rational finite. -/
def defaultConfig : Config :=
  ⟨true, true, true, true, fun _ => true⟩

/-- Semantics of the ENABLE_CHECK macro: the guarded body runs when the
option is disabled or the condition holds. -/
def enableCheck (opt cond : Bool) : Bool :=
  !opt || cond

/-- Pointwise update of the adjoint map, modelling adjoints[i] = v. -/
def upd (f : Nat → Rat) (i : Nat) (v : Rat) : Nat → Rat :=
  fun j => if j = i then v else f j

/-- Modelled from the spec: indexHandler.hpp is not under src/.  Spec 4.2
describes the index allocator as an explicit free list plus a monotonic
counter; the maximum global index ever issued equals the counter. -/
structure IndexHandler where
  freeIndices : List Nat
  currentIndex : Nat
deriving DecidableEq

/-- Modelled from the spec: checkIndex assigns a fresh identity (pop from
the free list, else increment the counter) when the identity is the
sentinel 0, and leaves a nonzero identity unchanged.  Returns the new
identity together with the new handler state. -/
def checkIndex (h : IndexHandler) (index : Nat) : Nat × IndexHandler :=
  if 0 ≠ index then
    (index, h)
  else
    match h.freeIndices with
    | i :: rest => (i, ⟨rest, h.currentIndex⟩)
    | [] => (h.currentIndex + 1, ⟨[], h.currentIndex + 1⟩)

/-- Modelled from the spec: freeIndex pushes a nonzero identity onto the
free list and resets the callers identity slot to the sentinel 0 (the
passive store overload documents that the lhs index is set to zero and
only calls freeIndex). -/
def freeIndex (h : IndexHandler) (index : Nat) : IndexHandler × Nat :=
  if 0 ≠ index then
    (⟨index :: h.freeIndices, h.currentIndex⟩, 0)
  else
    (h, index)

/-- Modelled from the spec: getMaximumGlobalIndex is the highest identity
ever produced, which is the monotonic counter. -/
def IndexHandler.getMaximumGlobalIndex (h : IndexHandler) : Nat :=
  h.currentIndex

/-- Modelled from the spec: reset discards the free list and the counter
state entirely. -/
def IndexHandler.reset (_h : IndexHandler) : IndexHandler :=
  ⟨[], 0⟩

/-- Modelled from the spec: externalFunctions.hpp is not under src/.  An
external function record carries an opaque callback and owned data; the
model names a record by an identifier and lets the replay and reset
traces record which callbacks and release hooks run. -/
structure ExternalFunction where
  id : Nat
deriving DecidableEq

/-- Flattened DataChunkVector position: offset into the jacobian buffer
plus the embedded statement buffer offset. -/
structure DataPosition where
  data : Nat
  inner : Nat
deriving DecidableEq

/-- Flattened ExternalFunctionChunkVector position: offset into the
external function buffer plus the embedded DataPosition. -/
structure Position where
  ext : Nat
  inner : DataPosition
deriving DecidableEq

/-- The initial position of all buffers. -/
def initialPosition : Position :=
  ⟨0, ⟨0, 0⟩⟩

/-- The ChunkIndexTape state.  statements holds (numberOfArguments,
lhsIndex) records, data holds (jacobi, index) records, externalFunctions
holds records paired with the jacobian layer checkpoint captured at push
time.  adjoints is the adjoint vector together with its allocated size. -/
structure Tape where
  statements : List (Nat × Nat)
  data : List (Rat × Nat)
  externalFunctions : List (ExternalFunction × DataPosition)
  adjoints : Nat → Rat
  adjointsSize : Nat
  active : Bool
  indexHandler : IndexHandler

/-- A freshly constructed tape: empty buffers, no adjoints, passive. -/
def initialTape : Tape :=
  ⟨[], [], [], fun _ => 0, 0, false, ⟨[], 0⟩⟩

/-- getPosition: the current composite checkpoint of all buffers. -/
def getPosition (t : Tape) : Position :=
  ⟨t.externalFunctions.length, ⟨t.data.length, t.statements.length⟩⟩

/-- resizeAdjoints: grow (or shrink) the adjoint vector to the given size,
zero initialising the newly allocated slots, as in chunkIndexTape.hpp
lines 252 to 261. -/
def resizeAdjoints (t : Tape) (size : Nat) : Tape :=
  { t with
    adjointsSize := size
    adjoints := fun i => if t.adjointsSize ≤ i ∧ i < size then 0 else t.adjoints i }

/-- pushJacobi, unit coefficient overload (lines 390 to 397): appends
(1.0, index) iff the index is nonzero.  The data and value parameters of
the C++ overload are unused there and omitted here. -/
def pushJacobi1 (_cfg : Config) (t : Tape) (index : Nat) : Tape :=
  if 0 ≠ index then
    { t with data := t.data ++ [(1, index)] }
  else
    t

/-- pushJacobi, explicit coefficient overload (lines 409 to 420): appends
(jacobi, index) iff the index is nonzero, subject to the two filters
OptIgnoreInvalidJacobies (drop non-finite) and OptJacobiIsZero (drop
exact zeros).  The value parameter of the C++ overload is unused. -/
def pushJacobi (cfg : Config) (t : Tape) (jacobi : Rat) (index : Nat) : Tape :=
  if 0 ≠ index then
    if enableCheck cfg.optIgnoreInvalidJacobies (cfg.isfinite jacobi) then
      if enableCheck cfg.optJacobiIsZero (decide (0 ≠ jacobi)) then
        { t with data := t.data ++ [(jacobi, index)] }
      else t
    else t
  else t

/-- One call the gradient reporting callback of an rhs expression makes
back into the tape: either the explicit coefficient form or the unit
coefficient form of pushJacobi. -/
inductive JacPush where
  | withJacobi (jacobi : Rat) (index : Nat)
  | unit (index : Nat)
deriving DecidableEq

/-- Dispatch one callback call to the matching pushJacobi overload. -/
def applyPush (cfg : Config) (t : Tape) : JacPush → Tape
  | .withJacobi c i => pushJacobi cfg t c i
  | .unit i => pushJacobi1 cfg t i

/-- rhs.calcGradient: the excluded expression layer reports its leaf terms
by a sequence of pushJacobi calls; the model takes that sequence as data. -/
def calcGradient (cfg : Config) (t : Tape) (pushes : List JacPush) : Tape :=
  pushes.foldl (applyPush cfg) t

/-- The jacobian entries one callback call appends under a configuration. -/
def pushedEntry (cfg : Config) : JacPush → List (Rat × Nat)
  | .withJacobi c i =>
    if 0 ≠ i then
      if enableCheck cfg.optIgnoreInvalidJacobies (cfg.isfinite c) then
        if enableCheck cfg.optJacobiIsZero (decide (0 ≠ c)) then [(c, i)] else []
      else []
    else []
  | .unit i => if 0 ≠ i then [(1, i)] else []

/-- All jacobian entries a callback sequence appends. -/
def pushedEntries (cfg : Config) (pushes : List JacPush) : List (Rat × Nat) :=
  (pushes.map (pushedEntry cfg)).flatten

/-- store, general expression overload (lines 289 to 313).  When active:
count the entries the callback appends; on zero free the lhs identity,
otherwise ensure a valid lhs identity and append the statement record.
When passive: free the lhs identity.  Returns the tape and the new lhs
identity (the C++ code updates lhsIndex through a reference). -/
def store (cfg : Config) (t : Tape) (lhsIndex : Nat) (pushes : List JacPush) :
    Tape × Nat :=
  if enableCheck cfg.optTapeActivity t.active then
    let startSize := t.data.length
    let t1 := calcGradient cfg t pushes
    let activeVariables := t1.data.length - startSize
    if 0 = activeVariables then
      let r := freeIndex t1.indexHandler lhsIndex
      ({ t1 with indexHandler := r.1 }, r.2)
    else
      let r := checkIndex t1.indexHandler lhsIndex
      ({ t1 with
          indexHandler := r.2
          statements := t1.statements ++ [(activeVariables, r.1)] }, r.1)
  else
    let r := freeIndex t.indexHandler lhsIndex
    ({ t with indexHandler := r.1 }, r.2)

/-- store, copy overload (lines 327 to 343): with an active tape and a
nonzero rhs identity, push the single unit jacobian entry and a statement
of size one; otherwise free the lhs identity. -/
def storeCopy (cfg : Config) (t : Tape) (lhsIndex rhsIndex : Nat) : Tape × Nat :=
  if enableCheck cfg.optTapeActivity t.active then
    if 0 ≠ rhsIndex then
      let r := checkIndex t.indexHandler lhsIndex
      ({ t with
          indexHandler := r.2
          data := t.data ++ [(1, rhsIndex)]
          statements := t.statements ++ [(1, r.1)] }, r.1)
    else
      let r := freeIndex t.indexHandler lhsIndex
      ({ t with indexHandler := r.1 }, r.2)
  else
    let r := freeIndex t.indexHandler lhsIndex
    ({ t with indexHandler := r.1 }, r.2)

/-- store, passive constant overload (lines 357 to 360): free the lhs
identity, no buffer writes. -/
def storePassive (t : Tape) (lhsIndex : Nat) : Tape × Nat :=
  let r := freeIndex t.indexHandler lhsIndex
  ({ t with indexHandler := r.1 }, r.2)

/-- store, manual overload (lines 372 to 379): when active, ensure a valid
lhs identity and append a statement announcing size jacobian entries that
the caller pushes afterwards; when passive, do nothing. -/
def storeManual (cfg : Config) (t : Tape) (lhsIndex : Nat) (size : Nat) :
    Tape × Nat :=
  if enableCheck cfg.optTapeActivity t.active then
    let r := checkIndex t.indexHandler lhsIndex
    ({ t with
        indexHandler := r.2
        statements := t.statements ++ [(size, r.1)] }, r.1)
  else
    (t, lhsIndex)

/-- initGradientData (lines 427 to 430): the identity slot starts at 0. -/
def initGradientData : Nat :=
  0

/-- destroyGradientData (lines 438 to 442): hand the identity back to the
index handler. -/
def destroyGradientData (t : Tape) (index : Nat) : Tape × Nat :=
  let r := freeIndex t.indexHandler index
  ({ t with indexHandler := r.1 }, r.2)

/-- registerInput (lines 777 to 779): force a valid identity onto the
variable. -/
def registerInput (t : Tape) (index : Nat) : Tape × Nat :=
  let r := checkIndex t.indexHandler index
  ({ t with indexHandler := r.2 }, r.1)

/-- getGradient (lines 465 to 471): a read outside the current bounds
returns the additive identity. -/
def getGradient (t : Tape) (index : Nat) : Rat :=
  if t.adjointsSize ≤ index then 0 else t.adjoints index

/-- setGradient (lines 453 to 457): index 0 is the inactive indicator and
is ignored; otherwise write through gradient, which grows the adjoint
vector on demand (lines 481 to 490). -/
def setGradient (t : Tape) (index : Nat) (g : Rat) : Tape :=
  if 0 ≠ index then
    let t1 := if t.adjointsSize ≤ index then resizeAdjoints t (index + 1) else t
    { t1 with adjoints := upd t1.adjoints index g }
  else t

/-- clearAdjoints (lines 506 to 510): zero the slots 0 up to the maximum
global index of the index handler; the loop bound does not consult
adjointsSize. -/
def clearAdjoints (t : Tape) : Tape :=
  { t with
    adjoints := fun i =>
      if i ≤ t.indexHandler.getMaximumGlobalIndex then 0 else t.adjoints i }

/-- Events observable during replay and reset: a statement whose adjoint
is consumed and distributed, an external function callback invocation,
and an external function release hook invocation. -/
inductive TapeEvent where
  | stmtEval (lhsIndex : Nat)
  | extCall (id : Nat)
  | extRelease (id : Nat)
deriving DecidableEq

/-- reset (lines 528 to 537): clear the adjoints, run the release hook of
every external function record between the current end and the target
position (popExternalFunction, lines 765 to 768, via the reverse forEach
of the chunk vector, modelled from spec 4.1), truncate every buffer back
to the target position, and reset the index handler.  The returned event
list records the release hook invocations. -/
def reset (t : Tape) (pos : Position) : Tape × List TapeEvent :=
  let t1 := clearAdjoints t
  let releases :=
    ((t1.externalFunctions.drop pos.ext).reverse).map
      (fun r => TapeEvent.extRelease r.1.id)
  (⟨t1.statements.take pos.inner.inner,
    t1.data.take pos.inner.data,
    t1.externalFunctions.take pos.ext,
    t1.adjoints,
    t1.adjointsSize,
    t1.active,
    t1.indexHandler.reset⟩, releases)

/-- reset with no argument (lines 542 to 544): full rewind. -/
def resetAll (t : Tape) : Tape × List TapeEvent :=
  reset t initialPosition

/-- pushExternalFunctionHandle (lines 756 to 759): append the record
together with the current jacobian layer position. -/
def pushExternalFunctionHandle (t : Tape) (f : ExternalFunction) : Tape :=
  { t with
    externalFunctions :=
      t.externalFunctions ++ [(f, ⟨t.data.length, t.statements.length⟩)] }

/-- The inner loop of evaluateExpressions (lines 570 to 574): pop n
jacobian entries below dataPos and accumulate adj times jacobi into the
adjoint slot of each entry index, walking downward. -/
def evaluateJacobies (jac : List (Rat × Nat)) :
    Nat → Nat → Rat → (Nat → Rat) → ((Nat → Rat) × Nat)
  | 0, dataPos, _, adj => (adj, dataPos)
  | n + 1, dataPos, a, adj =>
    let dp := dataPos - 1
    let e := jac.getD dp (0, 0)
    evaluateJacobies jac n dp a (upd adj e.2 (adj e.2 + a * e.1))

/-- evaluateExpressions (lines 561 to 579), flattened over the chunk walk
of evaluateStmt: walk the statements from stmtPos down to endStmtPos; for
each statement read and zero the adjoint of its lhs index, then either
distribute it over the jacobian entries of the statement or, when the
adjoint is zero and OptZeroAdjoint is enabled, skip the entries.  Also
returns the final jacobian cursor and the trace of consumed statements. -/
def evaluateExpressions (cfg : Config) (stmts : List (Nat × Nat))
    (jac : List (Rat × Nat)) (endStmtPos : Nat) :
    Nat → Nat → (Nat → Rat) → ((Nat → Rat) × Nat × List TapeEvent)
  | 0, dataPos, adj => (adj, dataPos, [])
  | stmtPos + 1, dataPos, adj =>
    if stmtPos + 1 ≤ endStmtPos then (adj, dataPos, [])
    else
      let s := stmts.getD stmtPos (0, 0)
      let a := adj s.2
      let adj1 := upd adj s.2 0
      if enableCheck cfg.optZeroAdjoint (decide (a ≠ 0)) then
        let r := evaluateJacobies jac s.1 dataPos a adj1
        let rest := evaluateExpressions cfg stmts jac endStmtPos stmtPos r.2 r.1
        (rest.1, rest.2.1, TapeEvent.stmtEval s.2 :: rest.2.2)
      else
        let rest :=
          evaluateExpressions cfg stmts jac endStmtPos stmtPos (dataPos - s.1) adj1
        (rest.1, rest.2.1, TapeEvent.stmtEval s.2 :: rest.2.2)

/-- evaluateData (lines 622 to 641), flattened: replay the statement range
between two jacobian layer positions, threading the jacobian cursor. -/
def evaluateData (cfg : Config) (t : Tape) (start stop : DataPosition)
    (adj : Nat → Rat) : (Nat → Rat) × List TapeEvent :=
  let r := evaluateExpressions cfg t.statements t.data stop.inner
    start.inner start.data adj
  (r.1, r.2.2)

/-- The forEach walk of ExtFuncEvaluator (lines 651 to 674): for each
external function record, in reverse recorded order, replay the statement
range down to the checkpoint of the record, invoke the callback, and
advance the cursor to the checkpoint. -/
def extFuncLoop (cfg : Config) (t : Tape) :
    List (ExternalFunction × DataPosition) → DataPosition → (Nat → Rat) →
    ((Nat → Rat) × DataPosition × List TapeEvent)
  | [], cur, adj => (adj, cur, [])
  | r :: rest, cur, adj =>
    let d := evaluateData cfg t cur r.2 adj
    let k := extFuncLoop cfg t rest r.2 d.1
    (k.1, k.2.1, d.2 ++ TapeEvent.extCall r.1.id :: k.2.2)

/-- evaluateExtFunc (lines 686 to 693): walk the external function records
between the two positions in reverse recorded order, then replay the
remaining statement range down to the end position. -/
def evaluateExtFunc (cfg : Config) (t : Tape) (start stop : Position)
    (adj : Nat → Rat) : (Nat → Rat) × List TapeEvent :=
  let recs := ((t.externalFunctions.take start.ext).drop stop.ext).reverse
  let k := extFuncLoop cfg t recs start.inner adj
  let d := evaluateData cfg t k.2.1 stop.inner k.1
  (d.1, k.2.2 ++ d.2)

/-- evaluate (lines 704 to 710): grow the adjoint vector to cover the
maximum global index before walking, then replay.  Returns the tape with
the new adjoints and the replay trace. -/
def evaluate (cfg : Config) (t : Tape) (start stop : Position) :
    Tape × List TapeEvent :=
  let t1 :=
    if t.adjointsSize ≤ t.indexHandler.getMaximumGlobalIndex then
      resizeAdjoints t (t.indexHandler.getMaximumGlobalIndex + 1)
    else t
  let r := evaluateExtFunc cfg t1 start stop t1.adjoints
  ({ t1 with adjoints := r.1 }, r.2)

/-- evaluate with no arguments (lines 716 to 718): full backward pass. -/
def evaluateAll (cfg : Config) (t : Tape) : Tape × List TapeEvent :=
  evaluate cfg t (getPosition t) initialPosition

/-- setActive (lines 794 to 796). -/
def setActive (t : Tape) : Tape :=
  { t with active := true }

/-- setPassive (lines 801 to 803). -/
def setPassive (t : Tape) : Tape :=
  { t with active := false }

/-
  Reachable states of the public interface.  A world pairs the tape with
  the identity slots of the ActiveReal variables the user has constructed;
  every operation goes through the tape interface exactly as the
  ActiveReal wrapper calls it.  Following the data model of the spec, a
  destroyed variable and a variable surviving a reset are no longer
  referenced, so their slots drop back to the sentinel 0.
-/

/-- A tape together with the identity slots of the user variables. -/
structure World where
  tape : Tape
  vars : List Nat

/-- The world with a fresh tape and no variables. -/
def initialWorld : World :=
  ⟨initialTape, []⟩

/-- One call the expression layer makes during a store: a coefficient and
the variable (by position in the world) supplying the input identity. -/
structure VarPush where
  jacobi : Rat
  var : Nat
deriving DecidableEq

/-- The operations of the public recording and replay interface. -/
inductive Op where
  | newVar
  | destroyVar (v : Nat)
  | regInput (v : Nat)
  | storeExpr (v : Nat) (pushes : List VarPush)
  | storeCopy (dst src : Nat)
  | storeConst (v : Nat)
  | storeMan (v : Nat) (size : Nat)
  | pushJac (jacobi : Rat) (v : Nat)
  | setGrad (v : Nat) (g : Rat)
  | activate
  | passivate
  | evalAll
  | resetTape
  | pushExtFunc (id : Nat)
deriving DecidableEq

/-- Resolve the variable references of a store callback into the tape
level pushJacobi calls. -/
def resolvePushes (vars : List Nat) (pushes : List VarPush) : List JacPush :=
  pushes.map (fun p => JacPush.withJacobi p.jacobi (vars.getD p.var 0))

/-- One step of the public interface. -/
def step (cfg : Config) (w : World) : Op → World
  | .newVar => ⟨w.tape, w.vars ++ [initGradientData]⟩
  | .destroyVar v =>
    let r := destroyGradientData w.tape (w.vars.getD v 0)
    ⟨r.1, w.vars.set v r.2⟩
  | .regInput v =>
    let r := registerInput w.tape (w.vars.getD v 0)
    ⟨r.1, w.vars.set v r.2⟩
  | .storeExpr v pushes =>
    let r := store cfg w.tape (w.vars.getD v 0) (resolvePushes w.vars pushes)
    ⟨r.1, w.vars.set v r.2⟩
  | .storeCopy dst src =>
    let r := storeCopy cfg w.tape (w.vars.getD dst 0) (w.vars.getD src 0)
    ⟨r.1, w.vars.set dst r.2⟩
  | .storeConst v =>
    let r := storePassive w.tape (w.vars.getD v 0)
    ⟨r.1, w.vars.set v r.2⟩
  | .storeMan v size =>
    let r := storeManual cfg w.tape (w.vars.getD v 0) size
    ⟨r.1, w.vars.set v r.2⟩
  | .pushJac c v => ⟨pushJacobi cfg w.tape c (w.vars.getD v 0), w.vars⟩
  | .setGrad v g => ⟨setGradient w.tape (w.vars.getD v 0) g, w.vars⟩
  | .activate => ⟨setActive w.tape, w.vars⟩
  | .passivate => ⟨setPassive w.tape, w.vars⟩
  | .evalAll => ⟨(evaluateAll cfg w.tape).1, w.vars⟩
  | .resetTape => ⟨(resetAll w.tape).1, w.vars.map (fun _ => 0)⟩
  | .pushExtFunc id => ⟨pushExternalFunctionHandle w.tape ⟨id⟩, w.vars⟩

/-- Run a sequence of public interface operations from the initial world. -/
def run (cfg : Config) (ops : List Op) : World :=
  ops.foldl (step cfg) initialWorld

/-
  Derived quantities used by the theorems.
-/

/-- The total coefficient a jacobian entry list carries for one index. -/
def listContrib (l : List (Rat × Nat)) (x : Nat) : Rat :=
  (l.map (fun e => if e.2 = x then e.1 else 0)).sum

/-- The total coefficient of the n entries starting at offset lo. -/
def segContrib (jac : List (Rat × Nat)) (lo n x : Nat) : Rat :=
  ((List.range n).map
    (fun k => if (jac.getD (lo + k) (0, 0)).2 = x then (jac.getD (lo + k) (0, 0)).1 else 0)).sum

/-- The trace the statement walk between two positions produces: one
stmtEval event per position, from stmtPos - 1 down to endPos. -/
def stmtTrace (stmts : List (Nat × Nat)) (endPos stmtPos : Nat) : List TapeEvent :=
  ((List.range' endPos (stmtPos - endPos)).reverse).map
    (fun p => TapeEvent.stmtEval (stmts.getD p (0, 0)).2)

/-
  Basic lemmas.
-/

theorem upd_self (f : Nat → Rat) (i : Nat) (v : Rat) : upd f i v i = v := by
  simp [upd]

theorem upd_other (f : Nat → Rat) {i j : Nat} (v : Rat) (h : j ≠ i) :
    upd f i v j = f j := by
  simp [upd, h]

theorem upd_eq_self (f : Nat → Rat) (i : Nat) (h : f i = 0) : upd f i 0 = f := by
  funext j
  by_cases hj : j = i
  · subst hj; simp [upd, h]
  · simp [upd, hj]

theorem upd_apply (f : Nat → Rat) (i : Nat) (v : Rat) (j : Nat) :
    upd f i v j = if j = i then v else f j := rfl

theorem upd_apply_self (f : Nat → Rat) (i : Nat) : upd f i (f i) = f := by
  funext j
  by_cases hj : j = i
  · subst hj; simp [upd]
  · simp [upd, hj]

theorem enableCheck_true (o : Bool) : enableCheck o true = true := by
  cases o <;> rfl

theorem enableCheck_false (o : Bool) : enableCheck o false = !o := by
  cases o <;> rfl

theorem segContrib_zero (jac : List (Rat × Nat)) (lo x : Nat) :
    segContrib jac lo 0 x = 0 := by
  simp [segContrib]

theorem segContrib_succ (jac : List (Rat × Nat)) (lo n x : Nat) :
    segContrib jac lo (n + 1) x =
      segContrib jac lo n x +
        (if (jac.getD (lo + n) (0, 0)).2 = x then (jac.getD (lo + n) (0, 0)).1 else 0) := by
  simp [segContrib, List.range_succ]

theorem segContrib_shift (e : Rat × Nat) (jac : List (Rat × Nat)) (lo n x : Nat) :
    segContrib (e :: jac) (lo + 1) n x = segContrib jac lo n x := by
  unfold segContrib
  congr 1
  apply List.map_congr_left
  intro k _
  have : (lo + 1 + k) = (lo + k) + 1 := by omega
  simp [this, List.getD]

theorem segContrib_full (jac : List (Rat × Nat)) (x : Nat) :
    segContrib jac 0 jac.length x = listContrib jac x := by
  induction jac with
  | nil => simp [segContrib, listContrib]
  | cons e l ih =>
    unfold segContrib listContrib
    rw [List.length_cons, List.range_succ_eq_map]
    simp only [List.map_cons, List.map_map, List.sum_cons]
    have h1 : ((e :: l).getD (0 + 0) (0, 0)) = e := by simp [List.getD]
    have h2 :
        (List.range l.length).map
            ((fun k =>
              if ((e :: l).getD (0 + k) (0, 0)).2 = x then ((e :: l).getD (0 + k) (0, 0)).1
              else 0) ∘ (fun i => i + 1)) =
          (List.range l.length).map
            (fun k => if (l.getD (0 + k) (0, 0)).2 = x then (l.getD (0 + k) (0, 0)).1 else 0) := by
      apply List.map_congr_left
      intro k _
      simp [Function.comp, List.getD]
    rw [h1, h2]
    have := ih
    unfold segContrib listContrib at this
    rw [this]

theorem listContrib_append (l1 l2 : List (Rat × Nat)) (x : Nat) :
    listContrib (l1 ++ l2) x = listContrib l1 x + listContrib l2 x := by
  simp [listContrib]

theorem listContrib_eq_zero (l : List (Rat × Nat)) (x : Nat)
    (h : ∀ e ∈ l, e.2 ≠ x) : listContrib l x = 0 := by
  induction l with
  | nil => simp [listContrib]
  | cons e l ih =>
    unfold listContrib
    simp only [List.map_cons, List.sum_cons]
    have he : e.2 ≠ x := h e (by simp)
    rw [if_neg he]
    have := ih (fun e' he' => h e' (by simp [he']))
    unfold listContrib at this
    rw [this]
    ring

/-
  Lemmas about the inner jacobian loop.
-/

theorem evaluateJacobies_snd (jac : List (Rat × Nat)) (n : Nat) :
    ∀ (dataPos : Nat) (a : Rat) (adj : Nat → Rat),
      (evaluateJacobies jac n dataPos a adj).2 = dataPos - n := by
  induction n with
  | zero => intro dataPos a adj; simp [evaluateJacobies]
  | succ n ih =>
    intro dataPos a adj
    unfold evaluateJacobies
    rw [ih]
    omega

theorem evaluateJacobies_zero_factor (jac : List (Rat × Nat)) (n : Nat) :
    ∀ (dataPos : Nat) (adj : Nat → Rat),
      (evaluateJacobies jac n dataPos 0 adj).1 = adj := by
  induction n with
  | zero => intro dataPos adj; simp [evaluateJacobies]
  | succ n ih =>
    intro dataPos adj
    unfold evaluateJacobies
    rw [ih]
    have h : adj (jac.getD (dataPos - 1) (0, 0)).2 + 0 * (jac.getD (dataPos - 1) (0, 0)).1 =
        adj (jac.getD (dataPos - 1) (0, 0)).2 := by ring
    rw [h, upd_apply_self]

theorem evaluateJacobies_fst (jac : List (Rat × Nat)) (n : Nat) :
    ∀ (dataPos : Nat) (a : Rat) (adj : Nat → Rat), n ≤ dataPos →
      ∀ x, (evaluateJacobies jac n dataPos a adj).1 x =
        adj x + a * segContrib jac (dataPos - n) n x := by
  induction n with
  | zero =>
    intro dataPos a adj _ x
    simp [evaluateJacobies, segContrib_zero]
  | succ n ih =>
    intro dataPos a adj hn x
    unfold evaluateJacobies
    have hdp : dataPos - 1 - n = dataPos - (n + 1) := by omega
    have hlast : dataPos - (n + 1) + n = dataPos - 1 := by omega
    rw [ih (dataPos - 1) a _ (by omega) x, hdp, segContrib_succ, hlast, upd_apply]
    by_cases hx : x = (jac.getD (dataPos - 1) (0, 0)).2
    · subst hx
      rw [if_pos rfl, if_pos rfl]
      ring
    · rw [if_neg hx, if_neg (fun h => hx h.symm)]
      ring

/-
  Lemmas about the statement walk.
-/

theorem stmtTrace_zero (stmts : List (Nat × Nat)) (endPos : Nat)
    (h : endPos = 0) : stmtTrace stmts endPos 0 = [] := by
  simp [stmtTrace, h]

theorem stmtTrace_stop (stmts : List (Nat × Nat)) (endPos stmtPos : Nat)
    (h : stmtPos ≤ endPos) : stmtTrace stmts endPos stmtPos = [] := by
  have : stmtPos - endPos = 0 := by omega
  simp [stmtTrace, this]

theorem stmtTrace_step (stmts : List (Nat × Nat)) (endPos stmtPos : Nat)
    (h : endPos ≤ stmtPos) :
    stmtTrace stmts endPos (stmtPos + 1) =
      TapeEvent.stmtEval (stmts.getD stmtPos (0, 0)).2 :: stmtTrace stmts endPos stmtPos := by
  unfold stmtTrace
  have h1 : stmtPos + 1 - endPos = (stmtPos - endPos) + 1 := by omega
  have h2 : endPos + 1 * (stmtPos - endPos) = stmtPos := by omega
  rw [h1, List.range'_concat, h2, List.reverse_append]
  simp

theorem evaluateExpressions_trace (cfg : Config) (stmts : List (Nat × Nat))
    (jac : List (Rat × Nat)) (endPos : Nat) (stmtPos : Nat) :
    ∀ (dataPos : Nat) (adj : Nat → Rat),
      (evaluateExpressions cfg stmts jac endPos stmtPos dataPos adj).2.2 =
        stmtTrace stmts endPos stmtPos := by
  induction stmtPos with
  | zero =>
    intro dataPos adj
    unfold evaluateExpressions
    rw [stmtTrace_stop stmts endPos 0 (by omega)]
  | succ p ih =>
    intro dataPos adj
    unfold evaluateExpressions
    by_cases hp : p + 1 ≤ endPos
    · rw [if_pos hp, stmtTrace_stop stmts endPos (p + 1) hp]
    · rw [if_neg hp, stmtTrace_step stmts endPos p (by omega)]
      by_cases hz :
          enableCheck cfg.optZeroAdjoint
            (decide (adj (stmts.getD p (0, 0)).2 ≠ 0)) = true
      · rw [if_pos hz]
        simp only [ih]
      · rw [if_neg hz]
        simp only [ih]

theorem evaluateExpressions_adj_zero (cfg : Config) (stmts : List (Nat × Nat))
    (jac : List (Rat × Nat)) (endPos : Nat) (stmtPos : Nat) :
    ∀ (dataPos : Nat) (adj : Nat → Rat),
      (∀ p, adj ((stmts.getD p (0, 0)).2) = 0) →
      (evaluateExpressions cfg stmts jac endPos stmtPos dataPos adj).1 = adj := by
  induction stmtPos with
  | zero =>
    intro dataPos adj _
    rfl
  | succ p ih =>
    intro dataPos adj hadj
    unfold evaluateExpressions
    by_cases hp : p + 1 ≤ endPos
    · rw [if_pos hp]
    · rw [if_neg hp]
      have ha : adj (stmts.getD p (0, 0)).2 = 0 := hadj p
      have hupd : upd adj (stmts.getD p (0, 0)).2 0 = adj :=
        upd_eq_self adj _ ha
      have hcheck :
          enableCheck cfg.optZeroAdjoint (decide (adj (stmts.getD p (0, 0)).2 ≠ 0)) =
            !cfg.optZeroAdjoint := by
        rw [ha]
        simp [enableCheck]
      by_cases hopt : cfg.optZeroAdjoint = true
      · have hcond :
            enableCheck cfg.optZeroAdjoint
              (decide (adj (stmts.getD p (0, 0)).2 ≠ 0)) = false := by
          rw [hcheck, hopt]
          rfl
        simp only [hcond, Bool.false_eq_true, if_false, hupd]
        exact ih (dataPos - (stmts.getD p (0, 0)).1) adj hadj
      · have hopt' : cfg.optZeroAdjoint = false := by
          cases h : cfg.optZeroAdjoint
          · rfl
          · exact absurd h hopt
        have hcond :
            enableCheck cfg.optZeroAdjoint
              (decide (adj (stmts.getD p (0, 0)).2 ≠ 0)) = true := by
          rw [hcheck, hopt']
          rfl
        simp only [hcond, if_true, ha, evaluateJacobies_zero_factor,
          evaluateJacobies_snd, hupd, ite_self]
        exact ih (dataPos - (stmts.getD p (0, 0)).1) adj hadj

/-
  Lemmas about recording: the callback only appends jacobian entries.
-/

theorem applyPush_data (cfg : Config) (t : Tape) (p : JacPush) :
    (applyPush cfg t p).data = t.data ++ pushedEntry cfg p := by
  cases p with
  | withJacobi c i =>
    simp only [applyPush, pushJacobi, pushedEntry]
    by_cases h1 : 0 ≠ i
    · rw [if_pos h1, if_pos h1]
      by_cases h2 : enableCheck cfg.optIgnoreInvalidJacobies (cfg.isfinite c) = true
      · rw [if_pos h2, if_pos h2]
        by_cases h3 : enableCheck cfg.optJacobiIsZero (decide (0 ≠ c)) = true
        · rw [if_pos h3, if_pos h3]
        · rw [if_neg h3, if_neg h3]
          simp
      · rw [if_neg h2, if_neg h2]
        simp
    · rw [if_neg h1, if_neg h1]
      simp
  | unit i =>
    simp only [applyPush, pushJacobi1, pushedEntry]
    by_cases h1 : 0 ≠ i
    · rw [if_pos h1, if_pos h1]
    · rw [if_neg h1, if_neg h1]
      simp

theorem applyPush_rest (cfg : Config) (t : Tape) (p : JacPush) :
    (applyPush cfg t p).statements = t.statements ∧
    (applyPush cfg t p).externalFunctions = t.externalFunctions ∧
    (applyPush cfg t p).adjoints = t.adjoints ∧
    (applyPush cfg t p).adjointsSize = t.adjointsSize ∧
    (applyPush cfg t p).active = t.active ∧
    (applyPush cfg t p).indexHandler = t.indexHandler := by
  cases p with
  | withJacobi c i =>
    simp only [applyPush, pushJacobi]
    by_cases h1 : 0 ≠ i
    · rw [if_pos h1]
      by_cases h2 : enableCheck cfg.optIgnoreInvalidJacobies (cfg.isfinite c) = true
      · rw [if_pos h2]
        by_cases h3 : enableCheck cfg.optJacobiIsZero (decide (0 ≠ c)) = true
        · rw [if_pos h3]
          exact ⟨rfl, rfl, rfl, rfl, rfl, rfl⟩
        · rw [if_neg h3]
          exact ⟨rfl, rfl, rfl, rfl, rfl, rfl⟩
      · rw [if_neg h2]
        exact ⟨rfl, rfl, rfl, rfl, rfl, rfl⟩
    · rw [if_neg h1]
      exact ⟨rfl, rfl, rfl, rfl, rfl, rfl⟩
  | unit i =>
    simp only [applyPush, pushJacobi1]
    by_cases h1 : 0 ≠ i
    · rw [if_pos h1]
      exact ⟨rfl, rfl, rfl, rfl, rfl, rfl⟩
    · rw [if_neg h1]
      exact ⟨rfl, rfl, rfl, rfl, rfl, rfl⟩

theorem pushedEntries_nil (cfg : Config) : pushedEntries cfg [] = [] := rfl

theorem pushedEntries_cons (cfg : Config) (p : JacPush) (ps : List JacPush) :
    pushedEntries cfg (p :: ps) = pushedEntry cfg p ++ pushedEntries cfg ps := by
  simp [pushedEntries]

theorem calcGradient_data (cfg : Config) (ps : List JacPush) :
    ∀ t : Tape, (calcGradient cfg t ps).data = t.data ++ pushedEntries cfg ps := by
  induction ps with
  | nil => intro t; simp [calcGradient, pushedEntries_nil]
  | cons p ps ih =>
    intro t
    unfold calcGradient at ih ⊢
    rw [List.foldl_cons, ih, applyPush_data, pushedEntries_cons, List.append_assoc]

theorem calcGradient_rest (cfg : Config) (ps : List JacPush) :
    ∀ t : Tape,
      (calcGradient cfg t ps).statements = t.statements ∧
      (calcGradient cfg t ps).externalFunctions = t.externalFunctions ∧
      (calcGradient cfg t ps).adjoints = t.adjoints ∧
      (calcGradient cfg t ps).adjointsSize = t.adjointsSize ∧
      (calcGradient cfg t ps).active = t.active ∧
      (calcGradient cfg t ps).indexHandler = t.indexHandler := by
  induction ps with
  | nil =>
    intro t
    exact ⟨rfl, rfl, rfl, rfl, rfl, rfl⟩
  | cons p ps ih =>
    intro t
    unfold calcGradient at ih ⊢
    rw [List.foldl_cons]
    have h1 := ih (applyPush cfg t p)
    have h2 := applyPush_rest cfg t p
    exact ⟨h1.1.trans h2.1, h1.2.1.trans h2.2.1, h1.2.2.1.trans h2.2.2.1,
      h1.2.2.2.1.trans h2.2.2.2.1, h1.2.2.2.2.1.trans h2.2.2.2.2.1,
      h1.2.2.2.2.2.trans h2.2.2.2.2.2⟩

theorem mem_pushedEntry_withJacobi (cfg : Config) (c : Rat) (i : Nat)
    (e : Rat × Nat) (h : e ∈ pushedEntry cfg (JacPush.withJacobi c i)) :
    e = (c, i) := by
  simp only [pushedEntry] at h
  by_cases h1 : 0 ≠ i
  · rw [if_pos h1] at h
    by_cases h2 : enableCheck cfg.optIgnoreInvalidJacobies (cfg.isfinite c) = true
    · rw [if_pos h2] at h
      by_cases h3 : enableCheck cfg.optJacobiIsZero (decide (0 ≠ c)) = true
      · rw [if_pos h3] at h
        simpa using h
      · rw [if_neg h3] at h
        simp at h
    · rw [if_neg h2] at h
      simp at h
  · rw [if_neg h1] at h
    simp at h

theorem mem_pushedEntry_nonzero (cfg : Config) (p : JacPush) (e : Rat × Nat)
    (h : e ∈ pushedEntry cfg p) : e.2 ≠ 0 := by
  cases p with
  | withJacobi c i =>
    simp only [pushedEntry] at h
    by_cases h1 : 0 ≠ i
    · rw [if_pos h1] at h
      have := mem_pushedEntry_withJacobi cfg c i e (by simp only [pushedEntry]; rw [if_pos h1]; exact h)
      rw [this]
      exact fun hh => h1 hh.symm
    · rw [if_neg h1] at h
      simp at h
  | unit i =>
    simp only [pushedEntry] at h
    by_cases h1 : 0 ≠ i
    · rw [if_pos h1] at h
      simp at h
      rw [h]
      exact fun hh => h1 hh.symm
    · rw [if_neg h1] at h
      simp at h

theorem mem_pushedEntries_nonzero (cfg : Config) (ps : List JacPush)
    (e : Rat × Nat) (h : e ∈ pushedEntries cfg ps) : e.2 ≠ 0 := by
  induction ps with
  | nil => simp [pushedEntries_nil] at h
  | cons p ps ih =>
    rw [pushedEntries_cons, List.mem_append] at h
    cases h with
    | inl h => exact mem_pushedEntry_nonzero cfg p e h
    | inr h => exact ih h

/-
  Lemmas about the outer replay walk.
-/

theorem adjZeroAt (stmts : List (Nat × Nat)) (adj : Nat → Rat)
    (h1 : ∀ s ∈ stmts, adj s.2 = 0) (h2 : adj 0 = 0) :
    ∀ p, adj ((stmts.getD p (0, 0)).2) = 0 := by
  intro p
  by_cases hp : p < stmts.length
  · rw [List.getD_eq_getElem stmts (0, 0) hp]
    exact h1 _ (List.getElem_mem hp)
  · rw [List.getD_eq_default stmts (0, 0) (by omega)]
    exact h2

theorem evaluateData_adj_zero (cfg : Config) (t : Tape) (start stop : DataPosition)
    (adj : Nat → Rat) (h : ∀ p, adj ((t.statements.getD p (0, 0)).2) = 0) :
    (evaluateData cfg t start stop adj).1 = adj := by
  unfold evaluateData
  exact evaluateExpressions_adj_zero cfg t.statements t.data stop.inner
    start.inner start.data adj h

theorem extFuncLoop_adj_zero (cfg : Config) (t : Tape)
    (recs : List (ExternalFunction × DataPosition)) :
    ∀ (cur : DataPosition) (adj : Nat → Rat),
      (∀ p, adj ((t.statements.getD p (0, 0)).2) = 0) →
      (extFuncLoop cfg t recs cur adj).1 = adj := by
  induction recs with
  | nil => intro cur adj _; rfl
  | cons r rest ih =>
    intro cur adj h
    unfold extFuncLoop
    simp only [evaluateData_adj_zero cfg t cur r.2 adj h]
    exact ih r.2 adj h

theorem evaluateExtFunc_adj_zero (cfg : Config) (t : Tape) (start stop : Position)
    (adj : Nat → Rat) (h : ∀ p, adj ((t.statements.getD p (0, 0)).2) = 0) :
    (evaluateExtFunc cfg t start stop adj).1 = adj := by
  unfold evaluateExtFunc
  simp only [extFuncLoop_adj_zero cfg t _ start.inner adj h]
  exact evaluateData_adj_zero cfg t _ stop.inner adj h

theorem mem_stmtTrace (stmts : List (Nat × Nat)) (endPos stmtPos : Nat)
    (ev : TapeEvent) (h : ev ∈ stmtTrace stmts endPos stmtPos) :
    ∃ i, ev = TapeEvent.stmtEval i := by
  unfold stmtTrace at h
  rw [List.mem_map] at h
  obtain ⟨p, _, hp⟩ := h
  exact ⟨(stmts.getD p (0, 0)).2, hp.symm⟩

theorem mem_extFuncLoop_trace (cfg : Config) (t : Tape)
    (recs : List (ExternalFunction × DataPosition)) :
    ∀ (cur : DataPosition) (adj : Nat → Rat) (ev : TapeEvent),
      ev ∈ (extFuncLoop cfg t recs cur adj).2.2 →
      (∃ i, ev = TapeEvent.stmtEval i) ∨ (∃ r ∈ recs, ev = TapeEvent.extCall r.1.id) := by
  induction recs with
  | nil => intro cur adj ev h; simp [extFuncLoop] at h
  | cons r rest ih =>
    intro cur adj ev h
    unfold extFuncLoop at h
    simp only [List.mem_append, List.mem_cons] at h
    rcases h with h | h | h
    · unfold evaluateData at h
      rw [evaluateExpressions_trace] at h
      exact Or.inl (mem_stmtTrace _ _ _ ev h)
    · exact Or.inr ⟨r, by simp, h⟩
    · rcases ih r.2 _ ev h with h' | ⟨r', hr', he⟩
      · exact Or.inl h'
      · exact Or.inr ⟨r', by simp [hr'], he⟩

theorem mem_evaluateExtFunc_trace (cfg : Config) (t : Tape) (start stop : Position)
    (adj : Nat → Rat) (ev : TapeEvent)
    (h : ev ∈ (evaluateExtFunc cfg t start stop adj).2) :
    (∃ i, ev = TapeEvent.stmtEval i) ∨ (∃ i, ev = TapeEvent.extCall i) := by
  unfold evaluateExtFunc at h
  simp only [List.mem_append] at h
  rcases h with h | h
  · rcases mem_extFuncLoop_trace cfg t _ start.inner adj ev h with h' | ⟨r, _, he⟩
    · exact Or.inl h'
    · exact Or.inr ⟨r.1.id, he⟩
  · unfold evaluateData at h
    rw [evaluateExpressions_trace] at h
    exact Or.inl (mem_stmtTrace _ _ _ ev h)

theorem extFuncLoop_count_call (cfg : Config) (t : Tape) (id : Nat)
    (recs : List (ExternalFunction × DataPosition)) :
    ∀ (cur : DataPosition) (adj : Nat → Rat),
      ((extFuncLoop cfg t recs cur adj).2.2).count (TapeEvent.extCall id) =
        (recs.map (fun r => TapeEvent.extCall r.1.id)).count (TapeEvent.extCall id) := by
  induction recs with
  | nil => intro cur adj; rfl
  | cons r rest ih =>
    intro cur adj
    unfold extFuncLoop
    simp only [List.count_append, List.count_cons, List.map_cons]
    have hz :
        ((evaluateData cfg t cur r.2 adj).2).count (TapeEvent.extCall id) = 0 := by
      rw [List.count_eq_zero]
      intro hmem
      unfold evaluateData at hmem
      rw [evaluateExpressions_trace] at hmem
      obtain ⟨i, hi⟩ := mem_stmtTrace _ _ _ _ hmem
      exact TapeEvent.noConfusion hi
    rw [hz, ih r.2]
    simp [List.count_cons]

theorem evaluate_fields (cfg : Config) (t : Tape) (start stop : Position) :
    (evaluate cfg t start stop).1.statements = t.statements ∧
    (evaluate cfg t start stop).1.data = t.data ∧
    (evaluate cfg t start stop).1.externalFunctions = t.externalFunctions ∧
    (evaluate cfg t start stop).1.active = t.active ∧
    (evaluate cfg t start stop).1.indexHandler = t.indexHandler := by
  unfold evaluate
  by_cases h : t.adjointsSize ≤ t.indexHandler.getMaximumGlobalIndex
  · rw [if_pos h]
    exact ⟨rfl, rfl, rfl, rfl, rfl⟩
  · rw [if_neg h]
    exact ⟨rfl, rfl, rfl, rfl, rfl⟩

theorem enableCheck_tt (b : Bool) : enableCheck true b = b := by
  cases b <;> rfl

theorem freeIndex_snd (h : IndexHandler) (i : Nat) : (freeIndex h i).2 = 0 := by
  unfold freeIndex
  by_cases hi : 0 ≠ i
  · rw [if_pos hi]
  · rw [if_neg hi]
    omega

/-
  Claim theorems.
-/

/-- C6: pushJacobi with an explicit coefficient appends (coefficient,
inputIdentity) to the jacobian buffer iff the identity is nonzero and,
under the default-on filters, the coefficient is finite (the std::isfinite
stand-in is quantified) and not exactly zero; the two argument form
appends (1.0, inputIdentity) iff the identity is nonzero. -/
theorem claim_C6_pushJacobi_filters :
    ∀ (fin : Rat → Bool) (t : Tape) (c : Rat) (idx : Nat),
      (pushJacobi ⟨true, true, true, true, fin⟩ t c idx).data =
        t.data ++ (if idx ≠ 0 ∧ fin c = true ∧ c ≠ 0 then [(c, idx)] else []) ∧
      (pushJacobi1 ⟨true, true, true, true, fin⟩ t idx).data =
        t.data ++ (if idx ≠ 0 then [(1, idx)] else []) := by
  intro fin t c idx
  constructor
  · unfold pushJacobi
    by_cases h1 : idx = 0
    · subst h1
      rw [if_neg (by simp), if_neg (by simp)]
      simp
    · have h1' : 0 ≠ idx := fun hh => h1 hh.symm
      rw [if_pos h1']
      by_cases h2 : fin c = true
      · rw [if_pos (by rw [enableCheck_tt]; exact h2)]
        by_cases h3 : c = 0
        · subst h3
          rw [if_neg (by simp [enableCheck_tt])]
          rw [if_neg (by simp)]
          simp
        · rw [if_pos (by rw [enableCheck_tt]; exact decide_eq_true (fun hh => h3 hh.symm))]
          rw [if_pos ⟨h1, h2, h3⟩]
      · rw [if_neg (by rw [enableCheck_tt]; exact h2)]
        rw [if_neg (fun hc => h2 hc.2.1)]
        simp
  · unfold pushJacobi1
    by_cases h1 : idx = 0
    · subst h1
      rw [if_neg (by simp), if_neg (by simp)]
      simp
    · rw [if_pos (fun hh => h1 hh.symm), if_pos h1]

/-- C10: reset writes exactly the adjoint slots 0 up to the maximum global
index of the index handler, regardless of the allocated size adjointsSize;
on the reachable state consisting of one registered input and no gradient
access the loop bound reaches past every allocated slot (adjointsSize is
0 while the bound is 1); evaluate, by contrast, grows the adjoint vector
over the maximum global index before walking. -/
theorem claim_C10_reset_adjoint_bounds :
    (∀ (t : Tape) (pos : Position),
      ((reset t pos).1).adjoints =
        fun i => if i ≤ t.indexHandler.getMaximumGlobalIndex then 0
          else t.adjoints i) ∧
    ((run defaultConfig [Op.newVar, Op.regInput 0]).tape.adjointsSize <
      (run defaultConfig [Op.newVar, Op.regInput 0]).tape.indexHandler.getMaximumGlobalIndex + 1) ∧
    (∀ (cfg : Config) (t : Tape),
      ((evaluateAll cfg t).1).indexHandler.getMaximumGlobalIndex <
        ((evaluateAll cfg t).1).adjointsSize) := by
  refine ⟨fun t pos => rfl, by decide, fun cfg t => ?_⟩
  unfold evaluateAll evaluate
  by_cases h : t.adjointsSize ≤ t.indexHandler.getMaximumGlobalIndex
  · rw [if_pos h]
    simp [resizeAdjoints, IndexHandler.getMaximumGlobalIndex]
  · rw [if_neg h]
    simp only []
    omega

/-- C4: for a tape in which every nonzero adjoint slot belongs to an
issued identity (the invariant of contract abiding usage), reset to a
position zeroes the entire adjoint vector, invokes the release hook
exactly once for each external function record between the current end
and the position (the returned trace is exactly one release per dropped
record, in reverse recorded order), truncates every chained buffer back
to the position, and resets the index allocator to pristine state. -/
theorem claim_C4_reset_spec :
    ∀ (t : Tape) (pos : Position),
      (∀ i, t.adjoints i ≠ 0 → i ≤ t.indexHandler.getMaximumGlobalIndex) →
      (∀ i, ((reset t pos).1).adjoints i = 0) ∧
      (reset t pos).2 =
        ((t.externalFunctions.drop pos.ext).reverse).map
          (fun r => TapeEvent.extRelease r.1.id) ∧
      (reset t pos).1.statements = t.statements.take pos.inner.inner ∧
      (reset t pos).1.data = t.data.take pos.inner.data ∧
      (reset t pos).1.externalFunctions = t.externalFunctions.take pos.ext ∧
      (reset t pos).1.indexHandler = ⟨[], 0⟩ ∧
      (reset t pos).1.adjointsSize = t.adjointsSize := by
  intro t pos h
  refine ⟨?_, rfl, rfl, rfl, rfl, rfl, rfl⟩
  intro i
  show (if i ≤ t.indexHandler.getMaximumGlobalIndex then 0 else t.adjoints i) = 0
  by_cases hi : i ≤ t.indexHandler.getMaximumGlobalIndex
  · rw [if_pos hi]
  · rw [if_neg hi]
    by_contra hne
    exact hi (h i hne)

/-- C4 witness: a concrete tape with one statement, one jacobian entry,
one external function record and an issued identity; reset to the initial
position zeroes the adjoints, releases the one record and truncates. -/
theorem claim_C4_reset_spec_witness :
    (∀ i, (⟨[(1, 1)], [(2, 1)], [(⟨5⟩, ⟨0, 0⟩)], fun _ => 0, 2, true,
        ⟨[], 1⟩⟩ : Tape).adjoints i ≠ 0 →
      i ≤ (⟨[(1, 1)], [(2, 1)], [(⟨5⟩, ⟨0, 0⟩)], fun _ => 0, 2, true,
        ⟨[], 1⟩⟩ : Tape).indexHandler.getMaximumGlobalIndex) ∧
    ((reset (⟨[(1, 1)], [(2, 1)], [(⟨5⟩, ⟨0, 0⟩)], fun _ => 0, 2, true,
        ⟨[], 1⟩⟩ : Tape) initialPosition).2 = [TapeEvent.extRelease 5] ∧
      (reset (⟨[(1, 1)], [(2, 1)], [(⟨5⟩, ⟨0, 0⟩)], fun _ => 0, 2, true,
        ⟨[], 1⟩⟩ : Tape) initialPosition).1.statements = [] ∧
      (reset (⟨[(1, 1)], [(2, 1)], [(⟨5⟩, ⟨0, 0⟩)], fun _ => 0, 2, true,
        ⟨[], 1⟩⟩ : Tape) initialPosition).1.adjoints 1 = 0) := by
  have hhyp : ∀ i, (⟨[(1, 1)], [(2, 1)], [(⟨5⟩, ⟨0, 0⟩)], fun _ => 0, 2, true,
      ⟨[], 1⟩⟩ : Tape).adjoints i ≠ 0 →
      i ≤ (⟨[(1, 1)], [(2, 1)], [(⟨5⟩, ⟨0, 0⟩)], fun _ => 0, 2, true,
        ⟨[], 1⟩⟩ : Tape).indexHandler.getMaximumGlobalIndex :=
    fun i hi => absurd rfl hi
  have hmain := claim_C4_reset_spec (⟨[(1, 1)], [(2, 1)], [(⟨5⟩, ⟨0, 0⟩)],
    fun _ => 0, 2, true, ⟨[], 1⟩⟩ : Tape) initialPosition hhyp
  exact ⟨hhyp, by rw [hmain.2.1]; rfl, by rw [hmain.2.2.1]; rfl, hmain.1 1⟩

/-- C2: on an active tape (with the activity check compiled in), the
general expression overload of store appends exactly the entries the
gradient callback pushes; when that count is zero, the output identity is
freed (returned identity 0, handler performs freeIndex) and no statement
record is appended; when it is nonzero, the output receives a valid
identity, nonzero and unchanged if it was already nonzero, and exactly
one statement record (appendedCount, outIdentity) is appended whose count
equals the number of jacobian entries appended since the previous
statement. -/
theorem claim_C2_store_statement_invariant :
    ∀ (cfg : Config) (t : Tape) (lhsIndex : Nat) (pushes : List JacPush),
      t.active = true → 0 ∉ t.indexHandler.freeIndices →
      (store cfg t lhsIndex pushes).1.data = t.data ++ pushedEntries cfg pushes ∧
      ((store cfg t lhsIndex pushes).1.data.length - t.data.length = 0 →
        (store cfg t lhsIndex pushes).1.statements = t.statements ∧
        (store cfg t lhsIndex pushes).2 = 0 ∧
        (store cfg t lhsIndex pushes).1.indexHandler =
          (freeIndex t.indexHandler lhsIndex).1) ∧
      ((store cfg t lhsIndex pushes).1.data.length - t.data.length ≠ 0 →
        (store cfg t lhsIndex pushes).1.statements =
          t.statements ++
            [((store cfg t lhsIndex pushes).1.data.length - t.data.length,
              (store cfg t lhsIndex pushes).2)] ∧
        (store cfg t lhsIndex pushes).2 ≠ 0 ∧
        (lhsIndex ≠ 0 → (store cfg t lhsIndex pushes).2 = lhsIndex) ∧
        (store cfg t lhsIndex pushes).1.indexHandler =
          (checkIndex t.indexHandler lhsIndex).2) := by
  intro cfg t lhsIndex pushes hact hfree
  have hec : enableCheck cfg.optTapeActivity t.active = true := by
    rw [hact, enableCheck_true]
  have hdata := calcGradient_data cfg pushes t
  have hrest := calcGradient_rest cfg pushes t
  have hlen : (calcGradient cfg t pushes).data.length - t.data.length =
      (pushedEntries cfg pushes).length := by
    rw [hdata]
    simp
  unfold store
  rw [if_pos hec]
  simp only [hlen]
  by_cases hz : 0 = (pushedEntries cfg pushes).length
  · rw [if_pos hz]
    simp only []
    refine ⟨by rw [hdata], fun _ => ⟨hrest.1, freeIndex_snd _ _, by rw [hrest.2.2.2.2.2]⟩,
      fun hner => ?_⟩
    exfalso
    apply hner
    show (calcGradient cfg t pushes).data.length - t.data.length = 0
    omega
  · rw [if_neg hz]
    simp only []
    have hlen2 : ((calcGradient cfg t pushes).statements ++
        [((calcGradient cfg t pushes).data.length - t.data.length,
          (checkIndex (calcGradient cfg t pushes).indexHandler lhsIndex).1)]).length =
        (calcGradient cfg t pushes).statements.length + 1 := by simp
    have hck := hrest.2.2.2.2.2
    have hnz : (checkIndex t.indexHandler lhsIndex).1 ≠ 0 := by
      unfold checkIndex
      by_cases h1 : 0 ≠ lhsIndex
      · rw [if_pos h1]
        exact fun hh => h1 hh.symm
      · rw [if_neg h1]
        cases hfl : t.indexHandler.freeIndices with
        | nil => simp
        | cons a rest =>
          simp only []
          intro ha
          apply hfree
          rw [hfl, ha]
          exact List.mem_cons_self 0 rest
    refine ⟨by rw [hdata], fun hzer => ?_, fun _ => ?_⟩
    · exfalso
      rw [hlen] at hzer
      omega
    · refine ⟨?_, ?_, ?_, ?_⟩
      · rw [hrest.1, hlen, hck]
      · rw [hck]
        exact hnz
      · intro hlhs
        rw [hck]
        unfold checkIndex
        rw [if_pos (fun hh => hlhs hh.symm)]
      · rw [hck]

/-- C2 witness: storing y = 2 x1 + 3 x2 on an active tape with inputs 1
and 2 issued appends two entries and one statement (2, 3); storing an all
zero combination on the same tape appends nothing and frees the output. -/
theorem claim_C2_store_statement_invariant_witness :
    ((⟨[], [], [], fun _ => 0, 0, true, ⟨[], 2⟩⟩ : Tape).active = true ∧
      0 ∉ (⟨[], [], [], fun _ => 0, 0, true, ⟨[], 2⟩⟩ : Tape).indexHandler.freeIndices) ∧
    (store defaultConfig (⟨[], [], [], fun _ => 0, 0, true, ⟨[], 2⟩⟩ : Tape) 0
        [JacPush.withJacobi 2 1, JacPush.withJacobi 3 2]).1.statements = [(2, 3)] ∧
    (store defaultConfig (⟨[], [], [], fun _ => 0, 0, true, ⟨[], 2⟩⟩ : Tape) 0
        [JacPush.withJacobi 0 1]).1.statements = [] ∧
    (store defaultConfig (⟨[], [], [], fun _ => 0, 0, true, ⟨[], 2⟩⟩ : Tape) 0
        [JacPush.withJacobi 0 1]).2 = 0 := by
  have h1 := claim_C2_store_statement_invariant defaultConfig
    (⟨[], [], [], fun _ => 0, 0, true, ⟨[], 2⟩⟩ : Tape) 0
    [JacPush.withJacobi 2 1, JacPush.withJacobi 3 2] rfl (by simp)
  have h2 := claim_C2_store_statement_invariant defaultConfig
    (⟨[], [], [], fun _ => 0, 0, true, ⟨[], 2⟩⟩ : Tape) 0
    [JacPush.withJacobi 0 1] rfl (by simp)
  refine ⟨⟨rfl, by simp⟩, ?_, ?_, ?_⟩
  · have := (h1.2.2 (by decide)).1
    rw [this]
    decide
  · exact (h2.2.1 (by decide)).1
  · exact (h2.2.1 (by decide)).2.1

theorem evalExtFuncTraceABF (cfg : Config) (t : Tape) (sA sB : Nat × Nat)
    (fid dpos : Nat) (hst : t.statements = [sA, sB])
    (hext : t.externalFunctions = [(⟨fid⟩, ⟨dpos, 1⟩)]) (adj : Nat → Rat)
    (dl : Nat) :
    (evaluateExtFunc cfg t ⟨1, ⟨dl, 2⟩⟩ initialPosition adj).2 =
      [TapeEvent.stmtEval sB.2, TapeEvent.extCall fid, TapeEvent.stmtEval sA.2] := by
  unfold evaluateExtFunc
  rw [hext]
  show ((extFuncLoop cfg t [(⟨fid⟩, ⟨dpos, 1⟩)] ⟨dl, 2⟩ adj).2.2 ++
      (evaluateData cfg t (extFuncLoop cfg t [(⟨fid⟩, ⟨dpos, 1⟩)] ⟨dl, 2⟩ adj).2.1
        initialPosition.inner
        (extFuncLoop cfg t [(⟨fid⟩, ⟨dpos, 1⟩)] ⟨dl, 2⟩ adj).1).2) = _
  unfold extFuncLoop
  simp only []
  unfold evaluateData
  rw [evaluateExpressions_trace, evaluateExpressions_trace]
  show (stmtTrace t.statements 1 2 ++ TapeEvent.extCall fid :: []) ++
      stmtTrace t.statements 0 1 = _
  rw [stmtTrace_step t.statements 1 1 (by omega),
    stmtTrace_stop t.statements 1 1 (by omega),
    stmtTrace_step t.statements 0 0 (by omega),
    stmtTrace_stop t.statements 0 0 (by omega), hst]
  simp [List.getD]

/-- C3: for a tape that recorded, in order, statement A, then an external
function record F (whose captured checkpoint therefore sits between the
two statements), then statement B, a full evaluate first applies
statement Bs adjoint contribution, then invokes the callback of F, then
applies statement As contribution: the replay trace is exactly that
sequence. -/
theorem claim_C3_replay_interleaving :
    ∀ (cfg : Config) (sA sB : Nat × Nat) (jac : List (Rat × Nat))
      (fid dpos : Nat) (adj : Nat → Rat) (size : Nat) (act : Bool)
      (h : IndexHandler),
      (evaluateAll cfg
        (⟨[sA, sB], jac, [(⟨fid⟩, ⟨dpos, 1⟩)], adj, size, act, h⟩ : Tape)).2 =
        [TapeEvent.stmtEval sB.2, TapeEvent.extCall fid,
          TapeEvent.stmtEval sA.2] := by
  intro cfg sA sB jac fid dpos adj size act h
  unfold evaluateAll evaluate
  by_cases hsz :
      (⟨[sA, sB], jac, [(⟨fid⟩, ⟨dpos, 1⟩)], adj, size, act, h⟩ : Tape).adjointsSize ≤
      (⟨[sA, sB], jac, [(⟨fid⟩, ⟨dpos, 1⟩)], adj, size, act,
        h⟩ : Tape).indexHandler.getMaximumGlobalIndex
  · rw [if_pos hsz]
    exact evalExtFuncTraceABF cfg _ sA sB fid dpos rfl rfl _ jac.length
  · rw [if_neg hsz]
    exact evalExtFuncTraceABF cfg _ sA sB fid dpos rfl rfl _ jac.length

theorem evaluateData_count_call (cfg : Config) (t : Tape) (cur stop : DataPosition)
    (adj : Nat → Rat) (id : Nat) :
    ((evaluateData cfg t cur stop adj).2).count (TapeEvent.extCall id) = 0 := by
  rw [List.count_eq_zero]
  intro hmem
  unfold evaluateData at hmem
  rw [evaluateExpressions_trace] at hmem
  obtain ⟨i, hi⟩ := mem_stmtTrace _ _ _ _ hmem
  exact TapeEvent.noConfusion hi

theorem evaluateExtFunc_count_call (cfg : Config) (t : Tape)
    (adj : Nat → Rat) (id : Nat) :
    ((evaluateExtFunc cfg t ⟨t.externalFunctions.length, ⟨t.data.length,
        t.statements.length⟩⟩ initialPosition adj).2).count (TapeEvent.extCall id) =
      (t.externalFunctions.map (fun r => TapeEvent.extCall r.1.id)).count
        (TapeEvent.extCall id) := by
  unfold evaluateExtFunc
  simp only [List.count_append]
  rw [evaluateData_count_call, extFuncLoop_count_call]
  have hrecs :
      (((t.externalFunctions.take t.externalFunctions.length).drop
          initialPosition.ext).reverse).map (fun r => TapeEvent.extCall r.1.id) =
        ((t.externalFunctions.map (fun r => TapeEvent.extCall r.1.id)).reverse) := by
    rw [List.take_length]
    show ((t.externalFunctions.drop 0).reverse).map _ = _
    rw [List.drop_zero, List.map_reverse]
  rw [hrecs, List.count_reverse, Nat.add_zero]

/-- C7: for every external function record, the stored callback runs only
during replay and never during reset, the release hook runs only during
reset and never during replay, and evaluate leaves the record buffer
untouched, so repeated evaluations invoke the callbacks again without the
owned data being released: the replay trace contains no release event,
the reset trace contains no call event, the record buffer is unchanged by
evaluate, and over a full evaluate each recorded callback is invoked
exactly as often as it was recorded. -/
theorem claim_C7_callback_release_separation :
    ∀ (cfg : Config) (t : Tape),
      (∀ (start stop : Position) (i : Nat),
        TapeEvent.extRelease i ∉ (evaluate cfg t start stop).2) ∧
      (∀ (pos : Position) (i : Nat),
        TapeEvent.extCall i ∉ (reset t pos).2) ∧
      (∀ (start stop : Position),
        (evaluate cfg t start stop).1.externalFunctions = t.externalFunctions) ∧
      (∀ id : Nat,
        ((evaluateAll cfg t).2).count (TapeEvent.extCall id) =
          (t.externalFunctions.map (fun r => TapeEvent.extCall r.1.id)).count
            (TapeEvent.extCall id)) := by
  intro cfg t
  refine ⟨?_, ?_, fun start stop => (evaluate_fields cfg t start stop).2.2.1, ?_⟩
  · intro start stop i hmem
    unfold evaluate at hmem
    by_cases hsz : t.adjointsSize ≤ t.indexHandler.getMaximumGlobalIndex
    · rw [if_pos hsz] at hmem
      rcases mem_evaluateExtFunc_trace _ _ _ _ _ _ hmem with ⟨j, hj⟩ | ⟨j, hj⟩ <;>
        exact TapeEvent.noConfusion hj
    · rw [if_neg hsz] at hmem
      rcases mem_evaluateExtFunc_trace _ _ _ _ _ _ hmem with ⟨j, hj⟩ | ⟨j, hj⟩ <;>
        exact TapeEvent.noConfusion hj
  · intro pos i hmem
    unfold reset at hmem
    simp only [List.mem_map] at hmem
    obtain ⟨r, _, hr⟩ := hmem
    exact TapeEvent.noConfusion hr
  · intro id
    unfold evaluateAll evaluate
    by_cases hsz : t.adjointsSize ≤ t.indexHandler.getMaximumGlobalIndex
    · rw [if_pos hsz]
      exact evaluateExtFunc_count_call cfg _ _ id
    · rw [if_neg hsz]
      exact evaluateExtFunc_count_call cfg _ _ id

/-- The recording used by the C5 counterexample: inputs u and v, then
w = 3 * v, then v = 2 * u (v keeps its identity, which is now the output
of a statement recorded after its own use), then adjoint(w) = 1 and a
full evaluate. -/
def c5ops : List Op :=
  [Op.activate, Op.newVar, Op.regInput 0, Op.newVar, Op.regInput 1, Op.newVar,
   Op.storeExpr 2 [⟨3, 1⟩], Op.storeExpr 1 [⟨2, 0⟩], Op.setGrad 2 1, Op.evalAll]

/-- C5 counterexample: after the recording above has been fully evaluated
once (with no adjoint seeding in between), a second evaluate over the
same range changes the adjoint of input u (identity 1) from 0 to 6: the
first run leaves the adjoint of input v in a slot that is also the output
identity of a recorded statement, so the second run redistributes it. -/
theorem claim_C5_counterexample :
    getGradient (run defaultConfig c5ops).tape 1 = 0 ∧
    getGradient (run defaultConfig (c5ops ++ [Op.evalAll])).tape 1 = 6 := by
  constructor
  · with_unfolding_all rfl
  · with_unfolding_all rfl

/-- C5 amended: re-running evaluate over a range is a no-op provided the
adjoint of every recorded statement output identity is zero when the run
starts (and slot 0 is zero); the first evaluate need not establish this
when a statement output identity aliases an identity that still carries
adjoint mass, as the counterexample shows. -/
theorem claim_C5_amended :
    ∀ (cfg : Config) (t : Tape),
      (∀ s ∈ t.statements, t.adjoints s.2 = 0) → t.adjoints 0 = 0 →
      ∀ i, getGradient (evaluateAll cfg t).1 i = getGradient t i := by
  intro cfg t h1 h2 i
  have hz := adjZeroAt t.statements t.adjoints h1 h2
  unfold evaluateAll evaluate
  by_cases hsz : t.adjointsSize ≤ t.indexHandler.getMaximumGlobalIndex
  · rw [if_pos hsz]
    simp only []
    have hz1 : ∀ p,
        (resizeAdjoints t (t.indexHandler.getMaximumGlobalIndex + 1)).adjoints
          (((resizeAdjoints t
            (t.indexHandler.getMaximumGlobalIndex + 1)).statements.getD p (0, 0)).2) = 0 := by
      intro p
      show (if _ ∧ _ then 0 else t.adjoints _) = 0
      split
      · rfl
      · exact hz p
    rw [evaluateExtFunc_adj_zero cfg _ _ _ _ hz1]
    unfold getGradient resizeAdjoints
    simp only []
    by_cases hi : t.adjointsSize ≤ i
    · rw [if_pos hi]
      by_cases hi2 : t.indexHandler.getMaximumGlobalIndex + 1 ≤ i
      · rw [if_pos hi2]
      · rw [if_neg hi2, if_pos ⟨hi, by omega⟩]
    · rw [if_neg hi, if_neg (by omega), if_neg (by omega)]
  · rw [if_neg hsz]
    simp only []
    rw [evaluateExtFunc_adj_zero cfg _ _ _ _ hz]

/-- C5 amended witness: a clean recording y = 2 * x evaluated once leaves
the statement output adjoint at zero, and a second evaluate then changes
no gradient. -/
theorem claim_C5_amended_witness :
    (∀ s ∈ (run defaultConfig [Op.activate, Op.newVar, Op.regInput 0, Op.newVar,
        Op.storeExpr 1 [⟨2, 0⟩], Op.setGrad 1 1, Op.evalAll]).tape.statements,
      (run defaultConfig [Op.activate, Op.newVar, Op.regInput 0, Op.newVar,
        Op.storeExpr 1 [⟨2, 0⟩], Op.setGrad 1 1, Op.evalAll]).tape.adjoints s.2 = 0) ∧
    (run defaultConfig [Op.activate, Op.newVar, Op.regInput 0, Op.newVar,
        Op.storeExpr 1 [⟨2, 0⟩], Op.setGrad 1 1, Op.evalAll]).tape.adjoints 0 = 0 ∧
    getGradient (evaluateAll defaultConfig
      (run defaultConfig [Op.activate, Op.newVar, Op.regInput 0, Op.newVar,
        Op.storeExpr 1 [⟨2, 0⟩], Op.setGrad 1 1, Op.evalAll]).tape).1 1 =
      getGradient (run defaultConfig [Op.activate, Op.newVar, Op.regInput 0,
        Op.newVar, Op.storeExpr 1 [⟨2, 0⟩], Op.setGrad 1 1, Op.evalAll]).tape 1 := by
  refine ⟨by with_unfolding_all decide, by with_unfolding_all decide, ?_⟩
  exact claim_C5_amended defaultConfig _ (by with_unfolding_all decide)
    (by with_unfolding_all decide) 1

theorem evaluateExpressions_succ (cfg : Config) (stmts : List (Nat × Nat))
    (jac : List (Rat × Nat)) (endPos p dataPos : Nat) (adj : Nat → Rat)
    (hp : ¬ p + 1 ≤ endPos) :
    evaluateExpressions cfg stmts jac endPos (p + 1) dataPos adj =
      (if enableCheck cfg.optZeroAdjoint
          (decide (adj ((stmts.getD p (0, 0)).2) ≠ 0)) = true then
        ((evaluateExpressions cfg stmts jac endPos p
            (evaluateJacobies jac (stmts.getD p (0, 0)).1 dataPos
              (adj ((stmts.getD p (0, 0)).2))
              (upd adj ((stmts.getD p (0, 0)).2) 0)).2
            (evaluateJacobies jac (stmts.getD p (0, 0)).1 dataPos
              (adj ((stmts.getD p (0, 0)).2))
              (upd adj ((stmts.getD p (0, 0)).2) 0)).1).1,
         (evaluateExpressions cfg stmts jac endPos p
            (evaluateJacobies jac (stmts.getD p (0, 0)).1 dataPos
              (adj ((stmts.getD p (0, 0)).2))
              (upd adj ((stmts.getD p (0, 0)).2) 0)).2
            (evaluateJacobies jac (stmts.getD p (0, 0)).1 dataPos
              (adj ((stmts.getD p (0, 0)).2))
              (upd adj ((stmts.getD p (0, 0)).2) 0)).1).2.1,
         TapeEvent.stmtEval ((stmts.getD p (0, 0)).2) ::
           (evaluateExpressions cfg stmts jac endPos p
              (evaluateJacobies jac (stmts.getD p (0, 0)).1 dataPos
                (adj ((stmts.getD p (0, 0)).2))
                (upd adj ((stmts.getD p (0, 0)).2) 0)).2
              (evaluateJacobies jac (stmts.getD p (0, 0)).1 dataPos
                (adj ((stmts.getD p (0, 0)).2))
                (upd adj ((stmts.getD p (0, 0)).2) 0)).1).2.2)
      else
        ((evaluateExpressions cfg stmts jac endPos p
            (dataPos - (stmts.getD p (0, 0)).1)
            (upd adj ((stmts.getD p (0, 0)).2) 0)).1,
         (evaluateExpressions cfg stmts jac endPos p
            (dataPos - (stmts.getD p (0, 0)).1)
            (upd adj ((stmts.getD p (0, 0)).2) 0)).2.1,
         TapeEvent.stmtEval ((stmts.getD p (0, 0)).2) ::
           (evaluateExpressions cfg stmts jac endPos p
              (dataPos - (stmts.getD p (0, 0)).1)
              (upd adj ((stmts.getD p (0, 0)).2) 0)).2.2)) := by
  conv_lhs => unfold evaluateExpressions
  rw [if_neg hp]

theorem evaluateExpressions_zero_step (cfg : Config) (stmts : List (Nat × Nat))
    (jac : List (Rat × Nat)) (endPos p dataPos : Nat) (adj : Nat → Rat)
    (hp : ¬ p + 1 ≤ endPos) (ha : adj ((stmts.getD p (0, 0)).2) = 0) :
    evaluateExpressions cfg stmts jac endPos (p + 1) dataPos adj =
      ((evaluateExpressions cfg stmts jac endPos p
          (dataPos - (stmts.getD p (0, 0)).1)
          (upd adj ((stmts.getD p (0, 0)).2) 0)).1,
       (evaluateExpressions cfg stmts jac endPos p
          (dataPos - (stmts.getD p (0, 0)).1)
          (upd adj ((stmts.getD p (0, 0)).2) 0)).2.1,
       TapeEvent.stmtEval ((stmts.getD p (0, 0)).2) ::
         (evaluateExpressions cfg stmts jac endPos p
            (dataPos - (stmts.getD p (0, 0)).1)
            (upd adj ((stmts.getD p (0, 0)).2) 0)).2.2) := by
  have hdec : decide (((0 : Rat)) ≠ 0) = false := by decide
  rw [evaluateExpressions_succ cfg stmts jac endPos p dataPos adj hp]
  simp only [ha, hdec, enableCheck_false, evaluateJacobies_zero_factor,
    evaluateJacobies_snd, ite_self]

theorem evaluateExpressions_cfg (cfg1 cfg2 : Config) (stmts : List (Nat × Nat))
    (jac : List (Rat × Nat)) (endPos : Nat) :
    ∀ (stmtPos dataPos : Nat) (adj : Nat → Rat),
      evaluateExpressions cfg1 stmts jac endPos stmtPos dataPos adj =
        evaluateExpressions cfg2 stmts jac endPos stmtPos dataPos adj := by
  intro stmtPos
  induction stmtPos with
  | zero => intro dataPos adj; rfl
  | succ p ih =>
    intro dataPos adj
    by_cases hp : p + 1 ≤ endPos
    · unfold evaluateExpressions
      rw [if_pos hp, if_pos hp]
    · by_cases ha : adj ((stmts.getD p (0, 0)).2) = 0
      · rw [evaluateExpressions_zero_step cfg1 stmts jac endPos p dataPos adj hp ha,
          evaluateExpressions_zero_step cfg2 stmts jac endPos p dataPos adj hp ha,
          ih (dataPos - (stmts.getD p (0, 0)).1) (upd adj ((stmts.getD p (0, 0)).2) 0)]
      · have hz : decide (adj ((stmts.getD p (0, 0)).2) ≠ 0) = true := decide_eq_true ha
        rw [evaluateExpressions_succ cfg1 stmts jac endPos p dataPos adj hp,
          evaluateExpressions_succ cfg2 stmts jac endPos p dataPos adj hp]
        simp only [hz, enableCheck_true, if_true, ih]

theorem evaluateData_cfg (cfg1 cfg2 : Config) (t : Tape) (start stop : DataPosition)
    (adj : Nat → Rat) :
    evaluateData cfg1 t start stop adj = evaluateData cfg2 t start stop adj := by
  unfold evaluateData
  rw [evaluateExpressions_cfg cfg1 cfg2]

theorem extFuncLoop_cfg (cfg1 cfg2 : Config) (t : Tape) :
    ∀ (recs : List (ExternalFunction × DataPosition)) (cur : DataPosition)
      (adj : Nat → Rat),
      extFuncLoop cfg1 t recs cur adj = extFuncLoop cfg2 t recs cur adj := by
  intro recs
  induction recs with
  | nil => intro cur adj; rfl
  | cons r rest ih =>
    intro cur adj
    unfold extFuncLoop
    simp only [evaluateData_cfg cfg1 cfg2, ih]

theorem evaluateExtFunc_cfg (cfg1 cfg2 : Config) (t : Tape) (start stop : Position)
    (adj : Nat → Rat) :
    evaluateExtFunc cfg1 t start stop adj = evaluateExtFunc cfg2 t start stop adj := by
  unfold evaluateExtFunc
  simp only [extFuncLoop_cfg cfg1 cfg2, evaluateData_cfg cfg1 cfg2]

theorem evaluate_cfg (cfg1 cfg2 : Config) (t : Tape) (start stop : Position) :
    evaluate cfg1 t start stop = evaluate cfg2 t start stop := by
  unfold evaluate
  by_cases hsz : t.adjointsSize ≤ t.indexHandler.getMaximumGlobalIndex
  · rw [if_pos hsz]
    simp only []
    rw [evaluateExtFunc_cfg cfg1 cfg2]
  · rw [if_neg hsz]
    simp only []
    rw [evaluateExtFunc_cfg cfg1 cfg2]

theorem evaluateAll_cfg (cfg1 cfg2 : Config) (t : Tape) :
    evaluateAll cfg1 t = evaluateAll cfg2 t := by
  unfold evaluateAll
  rw [evaluate_cfg cfg1 cfg2]

theorem applyPush_cfg (a b c z1 z2 : Bool) (fin : Rat → Bool) :
    applyPush ⟨a, b, c, z1, fin⟩ = applyPush ⟨a, b, c, z2, fin⟩ := by
  funext t p
  cases p <;> rfl

theorem step_cfg (a b c z1 z2 : Bool) (fin : Rat → Bool) (w : World) (op : Op) :
    step ⟨a, b, c, z1, fin⟩ w op = step ⟨a, b, c, z2, fin⟩ w op := by
  cases op with
  | storeExpr v pushes =>
    simp only [step, store, calcGradient, applyPush_cfg a b c z1 z2 fin]
  | evalAll =>
    simp only [step, evaluateAll_cfg (⟨a, b, c, z1, fin⟩ : Config)
      (⟨a, b, c, z2, fin⟩ : Config)]
  | newVar => rfl
  | destroyVar v => rfl
  | regInput v => rfl
  | storeCopy dst src => rfl
  | storeConst v => rfl
  | storeMan v size => rfl
  | pushJac jc v => rfl
  | setGrad v g => rfl
  | activate => rfl
  | passivate => rfl
  | resetTape => rfl
  | pushExtFunc id => rfl

theorem foldl_step_cfg (a b c z1 z2 : Bool) (fin : Rat → Bool) (ops : List Op) :
    ∀ w : World,
      ops.foldl (step ⟨a, b, c, z1, fin⟩) w = ops.foldl (step ⟨a, b, c, z2, fin⟩) w := by
  induction ops with
  | nil => intro w; rfl
  | cons op ops ih =>
    intro w
    rw [List.foldl_cons, List.foldl_cons, step_cfg a b c z1 z2 fin w op, ih]

/-- The recording used by the C8 counterexample: input x, then y = 0 * x
(every entry of the statement is filtered when the zero coefficient
filter is on, so the two configurations record different statements and
allocate identities differently), destroy y, register input w (which
reuses the identity of y when it was allocated), then z = 5 * w, seed
adjoint(z) = 1 and evaluate. -/
def c8ops : List Op :=
  [Op.activate, Op.newVar, Op.regInput 0, Op.newVar, Op.storeExpr 1 [⟨0, 0⟩],
   Op.destroyVar 1, Op.newVar, Op.regInput 2, Op.newVar,
   Op.storeExpr 3 [⟨5, 2⟩], Op.setGrad 3 1, Op.evalAll]

/-- C8 counterexample: with all filters enabled the recording yields
adjoint(w) = 5, the correct derivative of z = 5 * w; with only the zero
coefficient filter disabled the extra recorded statement for y = 0 * x
has output identity equal to the reused identity of w, and its
consumption during replay zeroes the already accumulated adjoint of w,
yielding adjoint(w) = 0.  Disabling a filter therefore changes the final
adjoint values of the same recording. -/
theorem claim_C8_counterexample :
    getGradient (run defaultConfig c8ops).tape
      ((run defaultConfig c8ops).vars.getD 2 0) = 5 ∧
    getGradient (run ⟨true, true, false, true, fun _ => true⟩ c8ops).tape
      ((run ⟨true, true, false, true, fun _ => true⟩ c8ops).vars.getD 2 0) = 0 := by
  constructor
  · with_unfolding_all rfl
  · with_unfolding_all rfl

/-- C8 amended: the evaluation time policy (skipping zero adjoint
statements) never changes anything: an entire recording and replay run
under OptZeroAdjoint enabled is state for state identical to the same
run with it disabled, for every operation sequence and every setting of
the record time filters.  The two record time coefficient filters, by
contrast, can change final adjoint values when a fully filtered
statement interacts with identity reuse, as the counterexample shows, so
value equivalence for them holds only when they do not change the
recorded data. -/
theorem claim_C8_amended :
    ∀ (a b c : Bool) (fin : Rat → Bool) (ops : List Op),
      run ⟨a, b, c, true, fin⟩ ops = run ⟨a, b, c, false, fin⟩ ops := by
  intro a b c fin ops
  unfold run
  exact foldl_step_cfg a b c true false fin ops initialWorld


/-
  Helper lemmas for the single statement claim.
-/

theorem tape_ext {a b : Tape}
    (h1 : a.statements = b.statements) (h2 : a.data = b.data)
    (h3 : a.externalFunctions = b.externalFunctions) (h4 : a.adjoints = b.adjoints)
    (h5 : a.adjointsSize = b.adjointsSize) (h6 : a.active = b.active)
    (h7 : a.indexHandler = b.indexHandler) : a = b := by
  obtain ⟨s1, d1, e1, a1, z1, c1, i1⟩ := a
  obtain ⟨s2, d2, e2, a2, z2, c2, i2⟩ := b
  dsimp only at h1 h2 h3 h4 h5 h6 h7
  subst h1
  subst h2
  subst h3
  subst h4
  subst h5
  subst h6
  subst h7
  rfl

theorem pushedEntry_default (c : Rat) (x : Nat) :
    pushedEntry defaultConfig (JacPush.withJacobi c x) =
      if x ≠ 0 ∧ c ≠ 0 then [(c, x)] else [] := by
  simp only [pushedEntry, defaultConfig]
  by_cases hx : x = 0
  · subst hx
    rw [if_neg (by simp), if_neg (by simp)]
  · rw [if_pos (fun h => hx h.symm)]
    rw [if_pos (by rfl)]
    by_cases hc : c = 0
    · subst hc
      rw [if_neg (by simp [enableCheck])]
      rw [if_neg (by simp)]
    · rw [if_pos (by rw [enableCheck_tt]; exact decide_eq_true (fun h => hc h.symm))]
      rw [if_pos ⟨hx, hc⟩]

theorem mem_pushedEntries_zip (cs : List Rat) :
    ∀ (xs : List Nat) (e : Rat × Nat),
      e ∈ pushedEntries defaultConfig (List.zipWith JacPush.withJacobi cs xs) →
      e.2 ∈ xs := by
  induction cs with
  | nil =>
    intro xs e h
    simp [pushedEntries_nil] at h
  | cons c cs ih =>
    intro xs e h
    cases xs with
    | nil => simp [pushedEntries_nil] at h
    | cons x xs =>
      rw [List.zipWith_cons_cons, pushedEntries_cons, List.mem_append] at h
      cases h with
      | inl h =>
        have := mem_pushedEntry_withJacobi defaultConfig c x e h
        rw [this]
        exact List.mem_cons_self x xs
      | inr h =>
        exact List.mem_cons_of_mem x (ih xs e h)

theorem zip_entries_nil_coeffs (cs : List Rat) :
    ∀ (xs : List Nat),
      cs.length = xs.length → (∀ x ∈ xs, x ≠ 0) →
      pushedEntries defaultConfig (List.zipWith JacPush.withJacobi cs xs) = [] →
      ∀ (i : Nat) (hi : i < cs.length), cs.get ⟨i, hi⟩ = 0 := by
  induction cs with
  | nil =>
    intro xs _ _ _ i hi
    exact absurd hi (by simp)
  | cons c cs ih =>
    intro xs hlen hx hnil i hi
    cases xs with
    | nil => exact absurd hlen (by simp)
    | cons x xs =>
      rw [List.zipWith_cons_cons, pushedEntries_cons, List.append_eq_nil] at hnil
      have hc : c = 0 := by
        have := hnil.1
        rw [pushedEntry_default] at this
        by_cases hc0 : c = 0
        · exact hc0
        · rw [if_pos ⟨hx x (List.mem_cons_self x xs), hc0⟩] at this
          exact absurd this (by simp)
      cases i with
      | zero => exact hc
      | succ k =>
        exact ih xs (by simpa using hlen)
          (fun z hz => hx z (List.mem_cons_of_mem x hz)) hnil.2 k (by simpa using hi)

theorem listContrib_zip (cs : List Rat) :
    ∀ (xs : List Nat), xs.Nodup → (∀ x ∈ xs, x ≠ 0) → cs.length = xs.length →
      ∀ (i : Nat) (hi : i < xs.length) (hi2 : i < cs.length),
        listContrib (pushedEntries defaultConfig (List.zipWith JacPush.withJacobi cs xs))
          (xs.get ⟨i, hi⟩) = cs.get ⟨i, hi2⟩ := by
  induction cs with
  | nil =>
    intro xs _ _ _ i _ hi2
    exact absurd hi2 (by simp)
  | cons c cs ih =>
    intro xs hnd hx hlen i hi hi2
    cases xs with
    | nil => exact absurd hi (by simp)
    | cons x xs =>
      rw [List.zipWith_cons_cons, pushedEntries_cons, listContrib_append]
      have hxne : x ≠ 0 := hx x (List.mem_cons_self x xs)
      have hnotmem : x ∉ xs := (List.nodup_cons.mp hnd).1
      cases i with
      | zero =>
        rw [show (x :: xs).get ⟨0, hi⟩ = x from rfl,
          show (c :: cs).get ⟨0, hi2⟩ = c from rfl]
        have htail :
            listContrib (pushedEntries defaultConfig
              (List.zipWith JacPush.withJacobi cs xs)) x = 0 := by
          apply listContrib_eq_zero
          intro e he hex
          exact hnotmem (hex ▸ mem_pushedEntries_zip cs xs e he)
        rw [htail, add_zero, pushedEntry_default]
        by_cases hc : c = 0
        · subst hc
          rw [if_neg (by simp)]
          simp [listContrib]
        · rw [if_pos ⟨hxne, hc⟩]
          simp [listContrib]
      | succ k =>
        have hk : k < xs.length := by simpa using hi
        have hk2 : k < cs.length := by simpa using hi2
        rw [show (x :: xs).get ⟨k + 1, hi⟩ = xs.get ⟨k, hk⟩ from rfl,
          show (c :: cs).get ⟨k + 1, hi2⟩ = cs.get ⟨k, hk2⟩ from rfl]
        have hhead :
            listContrib (pushedEntry defaultConfig (JacPush.withJacobi c x))
              (xs.get ⟨k, hk⟩) = 0 := by
          apply listContrib_eq_zero
          intro e he hex
          have he2 : e.2 = x := by
            rw [mem_pushedEntry_withJacobi defaultConfig c x e he]
          apply hnotmem
          rw [← he2, hex]
          exact List.get_mem xs k hk
        rw [hhead, zero_add]
        exact ih xs (List.nodup_cons.mp hnd).2
          (fun z hz => hx z (List.mem_cons_of_mem x hz)) (by simpa using hlen) k hk hk2

theorem store_fresh (m : Nat) (ps : List JacPush) :
    store defaultConfig (⟨[], [], [], fun _ => 0, 0, true, ⟨[], m⟩⟩ : Tape) 0 ps =
      (if (pushedEntries defaultConfig ps).length = 0 then
        ((⟨[], pushedEntries defaultConfig ps, [], fun _ => 0, 0, true,
          ⟨[], m⟩⟩ : Tape), 0)
      else
        ((⟨[((pushedEntries defaultConfig ps).length, m + 1)],
          pushedEntries defaultConfig ps, [], fun _ => 0, 0, true,
          ⟨[], m + 1⟩⟩ : Tape), m + 1)) := by
  have ht1 : calcGradient defaultConfig
      (⟨[], [], [], fun _ => 0, 0, true, ⟨[], m⟩⟩ : Tape) ps =
      (⟨[], pushedEntries defaultConfig ps, [], fun _ => 0, 0, true,
        ⟨[], m⟩⟩ : Tape) := by
    have hd := calcGradient_data defaultConfig ps
      (⟨[], [], [], fun _ => 0, 0, true, ⟨[], m⟩⟩ : Tape)
    have hr := calcGradient_rest defaultConfig ps
      (⟨[], [], [], fun _ => 0, 0, true, ⟨[], m⟩⟩ : Tape)
    exact tape_ext hr.1 (by rw [hd]; rfl) hr.2.1 hr.2.2.1 hr.2.2.2.1
      hr.2.2.2.2.1 hr.2.2.2.2.2
  unfold store
  rw [if_pos (by rfl)]
  simp only [ht1]
  by_cases hE : (pushedEntries defaultConfig ps).length = 0
  · rw [if_pos (by simpa using hE.symm), if_pos hE]
    rfl
  · rw [if_neg (by simpa using fun h => hE h.symm), if_neg hE]
    rfl

theorem evaluateAll_no_ext (cfg : Config) (t : Tape)
    (hext : t.externalFunctions = [])
    (hsz : ¬ t.adjointsSize ≤ t.indexHandler.getMaximumGlobalIndex) :
    (evaluateAll cfg t).1 =
      ⟨t.statements, t.data, t.externalFunctions,
        (evaluateExpressions cfg t.statements t.data 0
          t.statements.length t.data.length t.adjoints).1,
        t.adjointsSize, t.active, t.indexHandler⟩ := by
  unfold evaluateAll evaluate
  rw [if_neg hsz]
  simp only []
  unfold evaluateExtFunc
  rw [hext, List.take_nil, List.drop_nil]
  rfl

theorem evaluateAll_no_ext_resize (cfg : Config) (t : Tape)
    (hext : t.externalFunctions = [])
    (hsz : t.adjointsSize ≤ t.indexHandler.getMaximumGlobalIndex) :
    (evaluateAll cfg t).1 =
      ⟨t.statements, t.data, t.externalFunctions,
        (evaluateExpressions cfg t.statements t.data 0
          t.statements.length t.data.length
          (fun i => if t.adjointsSize ≤ i ∧
            i < t.indexHandler.getMaximumGlobalIndex + 1 then 0
            else t.adjoints i)).1,
        t.indexHandler.getMaximumGlobalIndex + 1, t.active, t.indexHandler⟩ := by
  unfold evaluateAll evaluate
  rw [if_pos hsz]
  simp only []
  unfold evaluateExtFunc
  rw [show (resizeAdjoints t (t.indexHandler.getMaximumGlobalIndex + 1)).externalFunctions
    = t.externalFunctions from rfl, hext, List.take_nil, List.drop_nil]
  rfl

theorem setGradient_zero (t : Tape) (g : Rat) : setGradient t 0 g = t := by
  unfold setGradient
  rw [if_neg (by simp)]

theorem evaluateExpressions_one (cfg : Config) (y : Nat) (jac : List (Rat × Nat))
    (adj : Nat → Rat) (hy : adj y ≠ 0) (x : Nat) :
    (evaluateExpressions cfg [(jac.length, y)] jac 0 1 jac.length adj).1 x =
      upd adj y 0 x + adj y * listContrib jac x := by
  rw [show (1 : Nat) = 0 + 1 from rfl,
    evaluateExpressions_succ cfg [(jac.length, y)] jac 0 0 jac.length adj (by omega)]
  rw [if_pos (by
    rw [show ((([(jac.length, y)] : List (Nat × Nat)).getD 0 (0, 0)).2) = y from rfl,
      decide_eq_true hy, enableCheck_true])]
  show (evaluateJacobies jac jac.length jac.length (adj y) (upd adj y 0)).1 x = _
  rw [evaluateJacobies_fst jac jac.length jac.length (adj y) (upd adj y 0)
    (Nat.le_refl _) x, Nat.sub_self, segContrib_full]

/-- C1: recording a single statement y = sum of c i times x i on an active
ChunkIndexTape whose inputs carry nonzero, pairwise distinct, issued
identities (at most the allocator counter m), then seeding adjoint(y) = 1
and running a full evaluate, yields adjoint(x i) = c i for every i and
adjoint(y) = 0 afterwards. -/
theorem claim_C1_single_statement_reverse :
    ∀ (m : Nat) (cs : List Rat) (xs : List Nat)
      (hlen : cs.length = xs.length) (_hnd : xs.Nodup)
      (_hx : ∀ x ∈ xs, x ≠ 0 ∧ x ≤ m),
      (∀ (i : Nat) (hi : i < xs.length),
        getGradient ((evaluateAll defaultConfig (setGradient
          (store defaultConfig (⟨[], [], [], fun _ => 0, 0, true, ⟨[], m⟩⟩ : Tape) 0
            (List.zipWith JacPush.withJacobi cs xs)).1
          (store defaultConfig (⟨[], [], [], fun _ => 0, 0, true, ⟨[], m⟩⟩ : Tape) 0
            (List.zipWith JacPush.withJacobi cs xs)).2 1)).1)
          (xs.get ⟨i, hi⟩) = cs.get ⟨i, by omega⟩) ∧
      getGradient ((evaluateAll defaultConfig (setGradient
        (store defaultConfig (⟨[], [], [], fun _ => 0, 0, true, ⟨[], m⟩⟩ : Tape) 0
          (List.zipWith JacPush.withJacobi cs xs)).1
        (store defaultConfig (⟨[], [], [], fun _ => 0, 0, true, ⟨[], m⟩⟩ : Tape) 0
          (List.zipWith JacPush.withJacobi cs xs)).2 1)).1)
        (store defaultConfig (⟨[], [], [], fun _ => 0, 0, true, ⟨[], m⟩⟩ : Tape) 0
          (List.zipWith JacPush.withJacobi cs xs)).2 = 0 := by
  intro m cs xs hlen hnd hx
  rw [store_fresh m (List.zipWith JacPush.withJacobi cs xs)]
  by_cases hE : (pushedEntries defaultConfig (List.zipWith JacPush.withJacobi cs xs)).length = 0
  · rw [if_pos hE]
    simp only []
    rw [setGradient_zero]
    rw [evaluateAll_no_ext_resize defaultConfig _ rfl (by show (0 : Nat) ≤ m; omega)]
    constructor
    · intro i hi
      have hc0 : cs.get ⟨i, by omega⟩ = 0 :=
        zip_entries_nil_coeffs cs xs hlen (fun z hz => (hx z hz).1)
          (List.length_eq_zero.mp hE) i (by omega)
      rw [hc0]
      unfold getGradient
      split
      · rfl
      · show (if ((0 : Nat) ≤ xs.get ⟨i, hi⟩ ∧ xs.get ⟨i, hi⟩ < m + 1)
            then (0 : Rat) else 0) = 0
        rw [ite_self]
    · unfold getGradient
      split
      · rfl
      · show (if ((0 : Nat) ≤ 0 ∧ 0 < m + 1) then (0 : Rat) else 0) = 0
        rw [ite_self]
  · rw [if_neg hE]
    simp only []
    have ht2 : setGradient (⟨[((pushedEntries defaultConfig
          (List.zipWith JacPush.withJacobi cs xs)).length, m + 1)],
        pushedEntries defaultConfig (List.zipWith JacPush.withJacobi cs xs),
        [], fun _ => 0, 0, true, ⟨[], m + 1⟩⟩ : Tape) (m + 1) 1 =
        (⟨[((pushedEntries defaultConfig
            (List.zipWith JacPush.withJacobi cs xs)).length, m + 1)],
          pushedEntries defaultConfig (List.zipWith JacPush.withJacobi cs xs),
          [], upd (fun i => if (0 : Nat) ≤ i ∧ i < m + 2 then (0 : Rat) else 0)
            (m + 1) 1, m + 2, true, ⟨[], m + 1⟩⟩ : Tape) := by
      unfold setGradient
      rw [if_pos (by omega : (0 : Nat) ≠ m + 1)]
      rw [if_pos (by show (0 : Nat) ≤ m + 1; omega)]
      rfl
    rw [ht2]
    rw [evaluateAll_no_ext defaultConfig _ rfl (by show ¬ m + 2 ≤ m + 1; omega)]
    have hy : upd (fun i => if (0 : Nat) ≤ i ∧ i < m + 2 then (0 : Rat) else 0)
        (m + 1) 1 (m + 1) ≠ 0 := by
      rw [upd_self]
      exact one_ne_zero
    have hA0 : ∀ i, (if (0 : Nat) ≤ i ∧ i < m + 2 then (0 : Rat) else 0) = 0 :=
      fun i => ite_self 0
    constructor
    · intro i hi
      have hxm : xs.get ⟨i, hi⟩ ≤ m := (hx _ (List.get_mem xs i hi)).2
      have hxney : xs.get ⟨i, hi⟩ ≠ m + 1 := by omega
      unfold getGradient
      split
      · rename_i hcon
        have hcon2 : m + 2 ≤ xs.get ⟨i, hi⟩ := hcon
        omega
      · show (evaluateExpressions defaultConfig
            [((pushedEntries defaultConfig (List.zipWith JacPush.withJacobi cs xs)).length,
              m + 1)]
            (pushedEntries defaultConfig (List.zipWith JacPush.withJacobi cs xs)) 0 1
            (pushedEntries defaultConfig (List.zipWith JacPush.withJacobi cs xs)).length
            (upd (fun i => if (0 : Nat) ≤ i ∧ i < m + 2 then (0 : Rat) else 0)
              (m + 1) 1)).1 (xs.get ⟨i, hi⟩) = _
        rw [evaluateExpressions_one defaultConfig (m + 1)
          (pushedEntries defaultConfig (List.zipWith JacPush.withJacobi cs xs))
          (upd (fun i => if (0 : Nat) ≤ i ∧ i < m + 2 then (0 : Rat) else 0) (m + 1) 1)
          hy (xs.get ⟨i, hi⟩)]
        rw [upd_self, one_mul, upd_other _ _ hxney, upd_other _ _ hxney, hA0, zero_add]
        exact listContrib_zip cs xs hnd (fun z hz => (hx z hz).1) hlen i hi (by omega)
    · unfold getGradient
      split
      · rename_i hcon
        have hcon2 : m + 2 ≤ m + 1 := hcon
        omega
      · show (evaluateExpressions defaultConfig
            [((pushedEntries defaultConfig (List.zipWith JacPush.withJacobi cs xs)).length,
              m + 1)]
            (pushedEntries defaultConfig (List.zipWith JacPush.withJacobi cs xs)) 0 1
            (pushedEntries defaultConfig (List.zipWith JacPush.withJacobi cs xs)).length
            (upd (fun i => if (0 : Nat) ≤ i ∧ i < m + 2 then (0 : Rat) else 0)
              (m + 1) 1)).1 (m + 1) = _
        rw [evaluateExpressions_one defaultConfig (m + 1)
          (pushedEntries defaultConfig (List.zipWith JacPush.withJacobi cs xs))
          (upd (fun i => if (0 : Nat) ≤ i ∧ i < m + 2 then (0 : Rat) else 0) (m + 1) 1)
          hy (m + 1)]
        rw [upd_self, upd_self, one_mul, zero_add]
        apply listContrib_eq_zero
        intro e he hey
        have hmem := mem_pushedEntries_zip cs xs e he
        have := (hx e.2 hmem).2
        omega

/-- C1 witness: the concrete scenario of the claim, y = 2 x1 + 3 x2 with
identities 1 and 2 issued; after seeding adjoint(y) = 1 and evaluating,
adjoint(x1) = 2, adjoint(x2) = 3 and adjoint(y) = 0. -/
theorem claim_C1_single_statement_reverse_witness :
    (([2, 3] : List Rat).length = ([1, 2] : List Nat).length) ∧
    ([1, 2] : List Nat).Nodup ∧
    (∀ x ∈ ([1, 2] : List Nat), x ≠ 0 ∧ x ≤ 2) ∧
    getGradient ((evaluateAll defaultConfig (setGradient
      (store defaultConfig (⟨[], [], [], fun _ => 0, 0, true, ⟨[], 2⟩⟩ : Tape) 0
        (List.zipWith JacPush.withJacobi [2, 3] [1, 2])).1
      (store defaultConfig (⟨[], [], [], fun _ => 0, 0, true, ⟨[], 2⟩⟩ : Tape) 0
        (List.zipWith JacPush.withJacobi [2, 3] [1, 2])).2 1)).1) 1 = 2 ∧
    getGradient ((evaluateAll defaultConfig (setGradient
      (store defaultConfig (⟨[], [], [], fun _ => 0, 0, true, ⟨[], 2⟩⟩ : Tape) 0
        (List.zipWith JacPush.withJacobi [2, 3] [1, 2])).1
      (store defaultConfig (⟨[], [], [], fun _ => 0, 0, true, ⟨[], 2⟩⟩ : Tape) 0
        (List.zipWith JacPush.withJacobi [2, 3] [1, 2])).2 1)).1) 2 = 3 ∧
    getGradient ((evaluateAll defaultConfig (setGradient
      (store defaultConfig (⟨[], [], [], fun _ => 0, 0, true, ⟨[], 2⟩⟩ : Tape) 0
        (List.zipWith JacPush.withJacobi [2, 3] [1, 2])).1
      (store defaultConfig (⟨[], [], [], fun _ => 0, 0, true, ⟨[], 2⟩⟩ : Tape) 0
        (List.zipWith JacPush.withJacobi [2, 3] [1, 2])).2 1)).1)
      (store defaultConfig (⟨[], [], [], fun _ => 0, 0, true, ⟨[], 2⟩⟩ : Tape) 0
        (List.zipWith JacPush.withJacobi [2, 3] [1, 2])).2 = 0 := by
  have h := claim_C1_single_statement_reverse 2 [2, 3] [1, 2] rfl (by decide) (by decide)
  exact ⟨rfl, by decide, by decide, h.1 0 (by decide), h.1 1 (by decide), h.2⟩


/-
  The reachable state invariant for the sentinel identity 0.
-/

/-- The tape never lets identity 0 occupy a meaningful slot: adjoint slot
0 holds the additive identity, no statement record carries output
identity 0, no jacobian entry carries input identity 0, and the free list
never contains 0. -/
def TapeInv (t : Tape) : Prop :=
  t.adjoints 0 = 0 ∧ (∀ s ∈ t.statements, s.2 ≠ 0) ∧
  (∀ e ∈ t.data, e.2 ≠ 0) ∧ 0 ∉ t.indexHandler.freeIndices

theorem checkIndex_nonzero (h : IndexHandler) (i : Nat)
    (hf : 0 ∉ h.freeIndices) :
    (checkIndex h i).1 ≠ 0 ∧ 0 ∉ (checkIndex h i).2.freeIndices := by
  unfold checkIndex
  by_cases hi : 0 ≠ i
  · rw [if_pos hi]
    exact ⟨fun hh => hi hh.symm, hf⟩
  · rw [if_neg hi]
    cases hfl : h.freeIndices with
    | nil => simp
    | cons a rest =>
      simp only []
      constructor
      · intro ha
        exact hf (by rw [hfl, ha]; exact List.mem_cons_self 0 rest)
      · intro ha
        exact hf (by rw [hfl]; exact List.mem_cons_of_mem a ha)

theorem freeIndex_free (h : IndexHandler) (i : Nat)
    (hf : 0 ∉ h.freeIndices) : 0 ∉ (freeIndex h i).1.freeIndices := by
  unfold freeIndex
  by_cases hi : 0 ≠ i
  · rw [if_pos hi]
    intro hm
    rcases List.mem_cons.mp hm with hm | hm
    · exact hi hm
    · exact hf hm
  · rw [if_neg hi]
    exact hf

theorem upd_slot0 (f : Nat → Rat) (i : Nat) (v : Rat) (h0 : f 0 = 0)
    (hv : i = 0 → v = 0) : upd f i v 0 = 0 := by
  unfold upd
  by_cases hi : (0 : Nat) = i
  · rw [if_pos hi]
    exact hv hi.symm
  · rw [if_neg hi]
    exact h0

theorem evaluateJacobies_adj0 (jac : List (Rat × Nat))
    (hjac : ∀ e ∈ jac, e.2 ≠ 0) (n : Nat) :
    ∀ (dataPos : Nat) (a : Rat) (adj : Nat → Rat), adj 0 = 0 →
      (evaluateJacobies jac n dataPos a adj).1 0 = 0 := by
  induction n with
  | zero => intro dataPos a adj h0; exact h0
  | succ n ih =>
    intro dataPos a adj h0
    unfold evaluateJacobies
    apply ih
    by_cases hlt : dataPos - 1 < jac.length
    · have hmem : jac.getD (dataPos - 1) (0, 0) ∈ jac := by
        rw [List.getD_eq_getElem jac (0, 0) hlt]
        exact List.getElem_mem hlt
      have hne : (jac.getD (dataPos - 1) (0, 0)).2 ≠ 0 := hjac _ hmem
      apply upd_slot0 _ _ _ h0
      intro h
      exact absurd h hne
    · have hdef : jac.getD (dataPos - 1) (0, 0) = (0, 0) :=
        List.getD_eq_default jac (0, 0) (by omega)
      rw [hdef]
      apply upd_slot0 _ _ _ h0
      intro _
      show adj 0 + a * 0 = 0
      rw [h0]
      ring

theorem evaluateExpressions_adj0 (cfg : Config) (stmts : List (Nat × Nat))
    (jac : List (Rat × Nat)) (endPos : Nat)
    (hjac : ∀ e ∈ jac, e.2 ≠ 0) :
    ∀ (stmtPos dataPos : Nat) (adj : Nat → Rat), adj 0 = 0 →
      (evaluateExpressions cfg stmts jac endPos stmtPos dataPos adj).1 0 = 0 := by
  intro stmtPos
  induction stmtPos with
  | zero => intro dataPos adj h0; exact h0
  | succ p ih =>
    intro dataPos adj h0
    by_cases hp : p + 1 ≤ endPos
    · unfold evaluateExpressions
      rw [if_pos hp]
      exact h0
    · rw [evaluateExpressions_succ cfg stmts jac endPos p dataPos adj hp]
      have hadj1 : upd adj ((stmts.getD p (0, 0)).2) 0 0 = 0 :=
        upd_slot0 _ _ _ h0 (fun _ => rfl)
      by_cases hz : enableCheck cfg.optZeroAdjoint
          (decide (adj ((stmts.getD p (0, 0)).2) ≠ 0)) = true
      · rw [if_pos hz]
        exact ih _ _ (evaluateJacobies_adj0 jac hjac _ _ _ _ hadj1)
      · rw [if_neg hz]
        exact ih _ _ hadj1

theorem extFuncLoop_adj0 (cfg : Config) (t : Tape)
    (hjac : ∀ e ∈ t.data, e.2 ≠ 0) :
    ∀ (recs : List (ExternalFunction × DataPosition)) (cur : DataPosition)
      (adj : Nat → Rat), adj 0 = 0 →
      (extFuncLoop cfg t recs cur adj).1 0 = 0 := by
  intro recs
  induction recs with
  | nil => intro cur adj h0; exact h0
  | cons r rest ih =>
    intro cur adj h0
    unfold extFuncLoop
    apply ih
    exact evaluateExpressions_adj0 cfg t.statements t.data _ hjac _ _ adj h0

theorem evaluate_adj0 (cfg : Config) (t : Tape) (start stop : Position)
    (h0 : t.adjoints 0 = 0) (hjac : ∀ e ∈ t.data, e.2 ≠ 0) :
    (evaluate cfg t start stop).1.adjoints 0 = 0 := by
  unfold evaluate
  by_cases hsz : t.adjointsSize ≤ t.indexHandler.getMaximumGlobalIndex
  · rw [if_pos hsz]
    show (evaluateExtFunc cfg (resizeAdjoints t
      (t.indexHandler.getMaximumGlobalIndex + 1)) start stop
      (resizeAdjoints t (t.indexHandler.getMaximumGlobalIndex + 1)).adjoints).1 0 = 0
    unfold evaluateExtFunc
    apply evaluateExpressions_adj0 cfg _ _ _
      (show ∀ e ∈ (resizeAdjoints t
        (t.indexHandler.getMaximumGlobalIndex + 1)).data, e.2 ≠ 0 from hjac)
    apply extFuncLoop_adj0 cfg (resizeAdjoints t
      (t.indexHandler.getMaximumGlobalIndex + 1))
      (show ∀ e ∈ (resizeAdjoints t
        (t.indexHandler.getMaximumGlobalIndex + 1)).data, e.2 ≠ 0 from hjac)
    show (if t.adjointsSize ≤ 0 ∧ _ then (0 : Rat) else t.adjoints 0) = 0
    split
    · rfl
    · exact h0
  · rw [if_neg hsz]
    show (evaluateExtFunc cfg _ _ _ _).1 0 = 0
    unfold evaluateExtFunc
    apply evaluateExpressions_adj0 cfg _ _ _ hjac
    exact extFuncLoop_adj0 cfg _ hjac _ _ _ h0

theorem setGradient_inv (t : Tape) (idx : Nat) (g : Rat) (h : TapeInv t) :
    TapeInv (setGradient t idx g) := by
  unfold setGradient
  by_cases hi : 0 ≠ idx
  · rw [if_pos hi]
    by_cases hb : t.adjointsSize ≤ idx
    · rw [if_pos hb]
      refine ⟨?_, h.2.1, h.2.2.1, h.2.2.2⟩
      apply upd_slot0 _ _ _ _ (fun hh => absurd hh.symm hi)
      show (if t.adjointsSize ≤ 0 ∧ _ then (0 : Rat) else t.adjoints 0) = 0
      split
      · rfl
      · exact h.1
    · rw [if_neg hb]
      refine ⟨?_, h.2.1, h.2.2.1, h.2.2.2⟩
      exact upd_slot0 _ _ _ h.1 (fun hh => absurd hh.symm hi)
  · rw [if_neg hi]
    exact h

theorem store_inv (cfg : Config) (t : Tape) (lhs : Nat) (ps : List JacPush)
    (h : TapeInv t) : TapeInv (store cfg t lhs ps).1 := by
  unfold store
  by_cases hact : enableCheck cfg.optTapeActivity t.active = true
  · rw [if_pos hact]
    simp only []
    have hd := calcGradient_data cfg ps t
    have hr := calcGradient_rest cfg ps t
    have hinv1 : TapeInv (calcGradient cfg t ps) := by
      refine ⟨by rw [hr.2.2.1]; exact h.1, by rw [hr.1]; exact h.2.1, ?_,
        by rw [hr.2.2.2.2.2]; exact h.2.2.2⟩
      intro e he
      rw [hd, List.mem_append] at he
      cases he with
      | inl he => exact h.2.2.1 e he
      | inr he => exact mem_pushedEntries_nonzero cfg ps e he
    by_cases hz : 0 = (calcGradient cfg t ps).data.length - t.data.length
    · rw [if_pos hz]
      refine ⟨hinv1.1, hinv1.2.1, hinv1.2.2.1, ?_⟩
      exact freeIndex_free _ _ hinv1.2.2.2
    · rw [if_neg hz]
      refine ⟨hinv1.1, ?_, hinv1.2.2.1, ?_⟩
      · intro s hs
        rw [List.mem_append] at hs
        cases hs with
        | inl hs => exact hinv1.2.1 s hs
        | inr hs =>
          rw [List.mem_singleton] at hs
          rw [hs]
          exact (checkIndex_nonzero _ lhs hinv1.2.2.2).1
      · exact (checkIndex_nonzero _ lhs hinv1.2.2.2).2
  · rw [if_neg hact]
    exact ⟨h.1, h.2.1, h.2.2.1, freeIndex_free _ _ h.2.2.2⟩

theorem storeCopy_inv (cfg : Config) (t : Tape) (lhs rhs : Nat)
    (h : TapeInv t) : TapeInv (storeCopy cfg t lhs rhs).1 := by
  unfold storeCopy
  by_cases hact : enableCheck cfg.optTapeActivity t.active = true
  · rw [if_pos hact]
    by_cases hrhs : 0 ≠ rhs
    · rw [if_pos hrhs]
      refine ⟨h.1, ?_, ?_, (checkIndex_nonzero _ lhs h.2.2.2).2⟩
      · intro s hs
        rw [List.mem_append] at hs
        cases hs with
        | inl hs => exact h.2.1 s hs
        | inr hs =>
          rw [List.mem_singleton] at hs
          rw [hs]
          exact (checkIndex_nonzero _ lhs h.2.2.2).1
      · intro e he
        rw [List.mem_append] at he
        cases he with
        | inl he => exact h.2.2.1 e he
        | inr he =>
          rw [List.mem_singleton] at he
          rw [he]
          exact fun hh => hrhs hh.symm
    · rw [if_neg hrhs]
      exact ⟨h.1, h.2.1, h.2.2.1, freeIndex_free _ _ h.2.2.2⟩
  · rw [if_neg hact]
    exact ⟨h.1, h.2.1, h.2.2.1, freeIndex_free _ _ h.2.2.2⟩

theorem storeManual_inv (cfg : Config) (t : Tape) (lhs size : Nat)
    (h : TapeInv t) : TapeInv (storeManual cfg t lhs size).1 := by
  unfold storeManual
  by_cases hact : enableCheck cfg.optTapeActivity t.active = true
  · rw [if_pos hact]
    refine ⟨h.1, ?_, h.2.2.1, (checkIndex_nonzero _ lhs h.2.2.2).2⟩
    intro s hs
    rw [List.mem_append] at hs
    cases hs with
    | inl hs => exact h.2.1 s hs
    | inr hs =>
      rw [List.mem_singleton] at hs
      rw [hs]
      exact (checkIndex_nonzero _ lhs h.2.2.2).1
  · rw [if_neg hact]
    exact h

theorem pushJacobi_inv (cfg : Config) (t : Tape) (c : Rat) (i : Nat)
    (h : TapeInv t) : TapeInv (pushJacobi cfg t c i) := by
  have hdata := applyPush_data cfg t (JacPush.withJacobi c i)
  have hrest := applyPush_rest cfg t (JacPush.withJacobi c i)
  have heq : pushJacobi cfg t c i = applyPush cfg t (JacPush.withJacobi c i) := rfl
  rw [heq]
  refine ⟨by rw [hrest.2.2.1]; exact h.1, by rw [hrest.1]; exact h.2.1, ?_,
    by rw [hrest.2.2.2.2.2]; exact h.2.2.2⟩
  intro e he
  rw [hdata, List.mem_append] at he
  cases he with
  | inl he => exact h.2.2.1 e he
  | inr he => exact mem_pushedEntry_nonzero cfg _ e he

theorem step_inv (cfg : Config) (w : World) (op : Op) (h : TapeInv w.tape) :
    TapeInv (step cfg w op).tape := by
  cases op with
  | newVar => exact h
  | destroyVar v =>
    exact ⟨h.1, h.2.1, h.2.2.1, freeIndex_free _ _ h.2.2.2⟩
  | regInput v =>
    exact ⟨h.1, h.2.1, h.2.2.1, (checkIndex_nonzero _ _ h.2.2.2).2⟩
  | storeExpr v pushes => exact store_inv cfg w.tape _ _ h
  | storeCopy dst src => exact storeCopy_inv cfg w.tape _ _ h
  | storeConst v =>
    exact ⟨h.1, h.2.1, h.2.2.1, freeIndex_free _ _ h.2.2.2⟩
  | storeMan v size => exact storeManual_inv cfg w.tape _ _ h
  | pushJac jc v => exact pushJacobi_inv cfg w.tape _ _ h
  | setGrad v g => exact setGradient_inv w.tape _ _ h
  | activate => exact h
  | passivate => exact h
  | evalAll =>
    have hf := evaluate_fields cfg w.tape (getPosition w.tape) initialPosition
    refine ⟨?_, ?_, ?_, ?_⟩
    · exact evaluate_adj0 cfg w.tape _ _ h.1 h.2.2.1
    · show ∀ s ∈ (evaluate cfg w.tape (getPosition w.tape)
        initialPosition).1.statements, s.2 ≠ 0
      rw [hf.1]
      exact h.2.1
    · show ∀ e ∈ (evaluate cfg w.tape (getPosition w.tape)
        initialPosition).1.data, e.2 ≠ 0
      rw [hf.2.1]
      exact h.2.2.1
    · show (0 : Nat) ∉ (evaluate cfg w.tape (getPosition w.tape)
        initialPosition).1.indexHandler.freeIndices
      rw [hf.2.2.2.2]
      exact h.2.2.2
  | resetTape =>
    refine ⟨?_, ?_, ?_, ?_⟩
    · show (if (0 : Nat) ≤ w.tape.indexHandler.getMaximumGlobalIndex then (0 : Rat)
        else w.tape.adjoints 0) = 0
      rw [if_pos (by omega)]
    · intro s hs
      exact h.2.1 s (List.mem_of_mem_take hs)
    · intro e he
      exact h.2.2.1 e (List.mem_of_mem_take he)
    · show (0 : Nat) ∉ ([] : List Nat)
      simp
  | pushExtFunc id => exact ⟨h.1, h.2.1, h.2.2.1, h.2.2.2⟩

theorem run_inv (cfg : Config) (ops : List Op) :
    ∀ w : World, TapeInv w.tape → TapeInv (ops.foldl (step cfg) w).tape := by
  induction ops with
  | nil => intro w h; exact h
  | cons op ops ih =>
    intro w h
    rw [List.foldl_cons]
    exact ih (step cfg w op) (step_inv cfg w op h)

/-- C9: in every state reachable through the public interface the adjoint
slot of identity 0 holds the additive identity and getGradient 0 returns
it, no statement record carries output identity 0, no jacobian entry
carries input identity 0; moreover setGradient at index 0 is a no op on
any tape, and both pushJacobi overloads at index 0 append nothing. -/
theorem claim_C9_zero_identity_invariant :
    (∀ (cfg : Config) (ops : List Op),
      (run cfg ops).tape.adjoints 0 = 0 ∧
      getGradient (run cfg ops).tape 0 = 0 ∧
      (∀ s ∈ (run cfg ops).tape.statements, s.2 ≠ 0) ∧
      (∀ e ∈ (run cfg ops).tape.data, e.2 ≠ 0)) ∧
    (∀ (t : Tape) (g : Rat), setGradient t 0 g = t) ∧
    (∀ (cfg : Config) (t : Tape) (c : Rat),
      pushJacobi cfg t c 0 = t ∧ pushJacobi1 cfg t 0 = t) := by
  refine ⟨?_, fun t g => setGradient_zero t g, ?_⟩
  · intro cfg ops
    have hinit : TapeInv initialTape :=
      ⟨rfl, by intro s hs; simp [initialTape] at hs,
        by intro e he; simp [initialTape] at he, by simp [initialTape]⟩
    have h := run_inv cfg ops initialWorld hinit
    refine ⟨h.1, ?_, h.2.1, h.2.2.1⟩
    unfold getGradient
    split
    · rfl
    · exact h.1
  · intro cfg t c
    constructor
    · unfold pushJacobi
      rw [if_neg (by simp)]
    · unfold pushJacobi1
      rw [if_neg (by simp)]


end CoDiPack
